import Mathlib

/-!
Verification of the alpha-beta minimax engine (`AlphaBeta_Full.py`) and the
game implementations (`SithVRebels_variant.py`, `TicTacToe.py`) of the
Sith-vs-Rebels repository.

Python strings are modelled as `List Char`, Python ints as `Int`, Python
lists as `List`, and the per-decision instance fields `nodes_expanded` and
`transposition_table` as an explicit state record threaded through the
recursion.  Wall-clock time is not modelled (the `time` field of a search
record carries no engine-relevant information).  The recursion of the
evaluators is made structural with a fuel parameter: `max_value g (fuel+1)`
performs one expansion step whose children run at fuel `fuel`, and at fuel 0
the evaluator returns 0 without looking at the state; all theorems hold for
every fuel, the plain minimax reference evaluator being truncated by the
same discipline.
-/

namespace ABF

/-- The contract a game must implement (top comment of `SithVRebels_variant.py`
and the methods used by `AlphaBeta_Full.py`). -/
structure SGame (σ : Type) (μ : Type) where
  actions : σ → List μ
  result : σ → μ → σ
  is_terminal : σ → Bool
  utility : σ → Int
  cutoff_test : σ → Nat → Bool
  eval : σ → Int
  transposition_string : σ → List Char

/-- `Minimax.ifny = 2**20`, the engine's stand-in for infinity. -/
def ifny : Int := 2 ^ 20

/-- The transposition table: a Python dict from state strings to values,
modelled as an association list where the most recent binding shadows. -/
def ttLookup : List (List Char × Int) → List Char → Option Int
  | [], _ => none
  | (k', v) :: rest, k => if k' = k then some v else ttLookup rest k

/-- The engine's per-decision mutable fields `nodes_expanded` and
`transposition_table`. -/
structure MMState where
  nodes_expanded : Nat
  table : List (List Char × Int)
deriving Repr, DecidableEq

/-- The `for act in self.game.actions(state)` loop of `__max_value`, with
the child evaluation abstracted (it is instantiated with `__min_value` at
the next depth); the boolean of the result records whether the loop
returned early through the `best >= beta` fail-hard cutoff. -/
def max_loop_h {σ μ : Type} (g : SGame σ μ)
    (child : σ → Int → Int → MMState → Int × MMState) (s : σ) :
    List μ → Int → Int → Int → MMState → Int × MMState × Bool
  | [], best, _, _, st => (best, st, false)
  | a :: as, best, alpha, beta, st =>
    let r := child (g.result s a) alpha beta st
    let best' := if r.1 > best then r.1 else best
    if best' ≥ beta then (best', r.2, true)
    else max_loop_h g child s as best' (max alpha best') beta r.2

/-- The action loop of `__min_value`; the boolean records an early return
through the `best <= alpha` fail-hard cutoff. -/
def min_loop_h {σ μ : Type} (g : SGame σ μ)
    (child : σ → Int → Int → MMState → Int × MMState) (s : σ) :
    List μ → Int → Int → Int → MMState → Int × MMState × Bool
  | [], best, _, _, st => (best, st, false)
  | a :: as, best, alpha, beta, st =>
    let r := child (g.result s a) alpha beta st
    let best' := if r.1 < best then r.1 else best
    if best' ≤ alpha then (best', r.2, true)
    else min_loop_h g child s as best' alpha (min beta best') r.2

/-- `__max_value` and `__min_value` in one function (the flag selects the
perspective), structurally recursive on the fuel so that it evaluates. -/
def ab_value {σ μ : Type} (g : SGame σ μ) : Nat → Bool → σ → Int → Int → Nat →
    MMState → Int × MMState
  | 0, _, _, _, _, _, st => (0, st)
  | fuel + 1, isMax, s, alpha, beta, depth, st =>
    match ttLookup st.table (g.transposition_string s) with
    | some v => (v, st)
    | none =>
      if g.is_terminal s then (g.utility s, st)
      else if g.cutoff_test s depth then (g.eval s, st)
      else
        let st1 : MMState := { nodes_expanded := st.nodes_expanded + 1, table := st.table }
        let child := fun s' alpha' beta' st' =>
          ab_value g fuel (!isMax) s' alpha' beta' (depth + 1) st'
        match (if isMax then max_loop_h g child s (g.actions s) (-ifny) alpha beta st1
               else min_loop_h g child s (g.actions s) ifny alpha beta st1) with
        | (best, st2, true) => (best, st2)
        | (best, st2, false) =>
          (best, { nodes_expanded := st2.nodes_expanded,
                   table := (g.transposition_string s, best) :: st2.table })

/-- `Minimax.__max_value(state, alpha, beta, depth)`. -/
def max_value {σ μ : Type} (g : SGame σ μ) (fuel : Nat) (s : σ) (alpha beta : Int)
    (depth : Nat) (st : MMState) : Int × MMState :=
  ab_value g fuel true s alpha beta depth st

/-- `Minimax.__min_value(state, alpha, beta, depth)`. -/
def min_value {σ μ : Type} (g : SGame σ μ) (fuel : Nat) (s : σ) (alpha beta : Int)
    (depth : Nat) (st : MMState) : Int × MMState :=
  ab_value g fuel false s alpha beta depth st

/-- The `for` loop of `__max_value` with its children running at the given
fuel and depth one below the node. -/
def max_loop {σ μ : Type} (g : SGame σ μ) (fuel : Nat) (s : σ) (acts : List μ)
    (best alpha beta : Int) (depth : Nat) (st : MMState) : Int × MMState × Bool :=
  max_loop_h g (fun s' alpha' beta' st' => min_value g fuel s' alpha' beta' (depth + 1) st')
    s acts best alpha beta st

/-- The `for` loop of `__min_value`. -/
def min_loop {σ μ : Type} (g : SGame σ μ) (fuel : Nat) (s : σ) (acts : List μ)
    (best alpha beta : Int) (depth : Nat) (st : MMState) : Int × MMState × Bool :=
  min_loop_h g (fun s' alpha' beta' st' => max_value g fuel s' alpha' beta' (depth + 1) st')
    s acts best alpha beta st

/-- `__max_value` at positive fuel, written as the source's cascade. -/
theorem max_value_succ {σ μ : Type} (g : SGame σ μ) (fuel : Nat) (s : σ)
    (alpha beta : Int) (depth : Nat) (st : MMState) :
    max_value g (fuel + 1) s alpha beta depth st =
      match ttLookup st.table (g.transposition_string s) with
      | some v => (v, st)
      | none =>
        if g.is_terminal s then (g.utility s, st)
        else if g.cutoff_test s depth then (g.eval s, st)
        else
          match max_loop g fuel s (g.actions s) (-ifny) alpha beta depth
              { nodes_expanded := st.nodes_expanded + 1, table := st.table } with
          | (best, st2, true) => (best, st2)
          | (best, st2, false) =>
            (best, { nodes_expanded := st2.nodes_expanded,
                     table := (g.transposition_string s, best) :: st2.table }) := rfl

/-- `__min_value` at positive fuel, written as the source's cascade. -/
theorem min_value_succ {σ μ : Type} (g : SGame σ μ) (fuel : Nat) (s : σ)
    (alpha beta : Int) (depth : Nat) (st : MMState) :
    min_value g (fuel + 1) s alpha beta depth st =
      match ttLookup st.table (g.transposition_string s) with
      | some v => (v, st)
      | none =>
        if g.is_terminal s then (g.utility s, st)
        else if g.cutoff_test s depth then (g.eval s, st)
        else
          match min_loop g fuel s (g.actions s) ifny alpha beta depth
              { nodes_expanded := st.nodes_expanded + 1, table := st.table } with
          | (best, st2, true) => (best, st2)
          | (best, st2, false) =>
            (best, { nodes_expanded := st2.nodes_expanded,
                     table := (g.transposition_string s, best) :: st2.table }) := rfl

/-- The engine's search record (`SearchTerminationRecord`), keeping the
fields the engine actually computes; the wall-clock `time` field and the
never-set `cutoff` flag are not modelled. -/
structure STRecord (μ : Type) where
  value : Int
  move : Option μ
  nodes : Nat
deriving Repr, DecidableEq

/-- Accumulator of the root-level loop of a decision call: the incumbent
value, the incumbent move, the current alpha (resp. beta) bound and the
engine state. -/
structure RootAcc (μ : Type) where
  best : Int
  act : Option μ
  bound : Int
  st : MMState

/-- The `for act in self.game.actions(state)` loop of `minimax_decision_max`:
recurses into `__min_value` for every action, replaces the incumbent only on
strict improvement, and tightens alpha; `beta` is passed to children
unchanged. -/
def root_loop_max {σ μ : Type} (g : SGame σ μ) (fuel : Nat) (s : σ) (acts : List μ)
    (best : Int) (act : Option μ) (alpha beta : Int) (st : MMState) : RootAcc μ :=
  match acts with
  | [] => ⟨best, act, alpha, st⟩
  | a :: as =>
    let r := min_value g fuel (g.result s a) alpha beta 1 st
    let p : Int × Option μ := if r.1 > best then (r.1, some a) else (best, act)
    root_loop_max g fuel s as p.1 p.2 (max alpha p.1) beta r.2

/-- The root loop of `minimax_decision_min`: mirror image of
`root_loop_max`, tightening beta. -/
def root_loop_min {σ μ : Type} (g : SGame σ μ) (fuel : Nat) (s : σ) (acts : List μ)
    (best : Int) (act : Option μ) (alpha beta : Int) (st : MMState) : RootAcc μ :=
  match acts with
  | [] => ⟨best, act, beta, st⟩
  | a :: as =>
    let r := max_value g fuel (g.result s a) alpha beta 1 st
    let p : Int × Option μ := if r.1 < best then (r.1, some a) else (best, act)
    root_loop_min g fuel s as p.1 p.2 alpha (min beta p.1) r.2

/-- `Minimax.minimax_decision_max(state)`: fresh node counter and
transposition table, alpha-beta window `(-ifny, ifny)`, root loop over all
actions.  Returns the search record together with the final engine state
(the Python object keeps the table in `self.transposition_table`). -/
def minimax_decision_max {σ μ : Type} (g : SGame σ μ) (fuel : Nat) (s : σ) :
    STRecord μ × MMState :=
  let st0 : MMState := { nodes_expanded := 0 + 1, table := [] }
  let r := root_loop_max g fuel s (g.actions s) (-ifny) none (-ifny) ifny st0
  (⟨r.best, r.act, r.st.nodes_expanded⟩, r.st)

/-- `Minimax.minimax_decision_min(state)`. -/
def minimax_decision_min {σ μ : Type} (g : SGame σ μ) (fuel : Nat) (s : σ) :
    STRecord μ × MMState :=
  let st0 : MMState := { nodes_expanded := 0 + 1, table := [] }
  let r := root_loop_min g fuel s (g.actions s) ifny none (-ifny) ifny st0
  (⟨r.best, r.act, r.st.nodes_expanded⟩, r.st)

/-- Plain unpruned minimax (both perspectives in one function), with the
same terminal/cutoff policy and the same fuel discipline as the engine. -/
def mm_value {σ μ : Type} (g : SGame σ μ) : Nat → Bool → σ → Nat → Int
  | 0, _, _, _ => 0
  | fuel + 1, isMax, s, depth =>
    if g.is_terminal s then g.utility s
    else if g.cutoff_test s depth then g.eval s
    else if isMax then
      (g.actions s).foldl
        (fun b a => max b (mm_value g fuel false (g.result s a) (depth + 1))) (-ifny)
    else
      (g.actions s).foldl
        (fun b a => min b (mm_value g fuel true (g.result s a) (depth + 1))) ifny

/-- Plain unpruned minimax value of a max node. -/
def mm_max {σ μ : Type} (g : SGame σ μ) (fuel : Nat) (s : σ) (depth : Nat) : Int :=
  mm_value g fuel true s depth

/-- Plain unpruned minimax value of a min node. -/
def mm_min {σ μ : Type} (g : SGame σ μ) (fuel : Nat) (s : σ) (depth : Nat) : Int :=
  mm_value g fuel false s depth

/-- Plain unpruned root value for the maximizing player: the maximum over
all root actions of the plain minimax value of the successor. -/
def mm_decision_max {σ μ : Type} (g : SGame σ μ) (fuel : Nat) (s : σ) : Int :=
  (g.actions s).foldl (fun b a => max b (mm_min g fuel (g.result s a) 1)) (-ifny)

/-- Plain unpruned root value for the minimizing player. -/
def mm_decision_min {σ μ : Type} (g : SGame σ μ) (fuel : Nat) (s : σ) : Int :=
  (g.actions s).foldl (fun b a => min b (mm_max g fuel (g.result s a) 1)) ifny

/-! ### A concrete contract-satisfying game on which pruning with the
transposition table diverges from plain minimax.

The game is a DAG: the state `X` is reachable both deep inside the first
root subtree (where it is evaluated under a raised alpha, its min child `Y`
prunes early, and the resulting inexact upper bound 11 is cached after a
completed loop) and as the only child of the second root child `B`, where
the stale cached 11 is returned although the exact value of `X` is 0. -/

/-- States of the counterexample game. -/
inductive CexS
  | r | A | B | M | K | W | N | X | Y | Z1 | Z2
deriving DecidableEq, Repr

open CexS in
/-- The counterexample game: all contract obligations hold (bounded
utilities, nonempty action lists, injective transposition strings). -/
def cexG : SGame CexS Nat where
  actions s :=
    match s with
    | r => [0, 1]
    | A => [0, 1]
    | M => [0, 1]
    | Y => [0, 1]
    | _ => [0]
  result s a :=
    match s, a with
    | r, 0 => A
    | r, _ => B
    | A, 0 => M
    | A, _ => K
    | M, 0 => W
    | M, _ => N
    | N, _ => X
    | X, _ => Y
    | Y, 0 => Z1
    | Y, _ => Z2
    | B, _ => X
    | t, _ => t
  is_terminal s :=
    match s with
    | W | K | Z1 | Z2 => true
    | _ => false
  utility s :=
    match s with
    | W => 12
    | K => 10
    | Z1 => 11
    | _ => 0
  cutoff_test _ _ := false
  eval _ := 0
  transposition_string s :=
    match s with
    | r => ['r']
    | A => ['a']
    | B => ['b']
    | M => ['m']
    | K => ['k']
    | W => ['w']
    | N => ['n']
    | X => ['x']
    | Y => ['y']
    | Z1 => ['1']
    | Z2 => ['2']

/-- All states the evaluator may look up during a search from `s`: the
node itself (its key is probed before the terminal test) and, when the
node is expanded, the trees of all successors — an over-approximation of
the states actually visited, independent of any pruning. -/
def atree {σ μ : Type} (g : SGame σ μ) : Nat → Bool → σ → Nat → List σ
  | 0, _, _, _ => []
  | fuel + 1, isMax, s, depth =>
    s :: (if g.is_terminal s then []
          else if g.cutoff_test s depth then []
          else (g.actions s).flatMap (fun a => atree g fuel (!isMax) (g.result s a) (depth + 1)))

/-- The transposition strings of a list of states. -/
def tstrings {σ μ : Type} (g : SGame σ μ) (l : List σ) : List (List Char) :=
  l.map g.transposition_string

/-- The keys bound in a transposition table. -/
def ttKeys (t : List (List Char × Int)) : List (List Char) :=
  t.map Prod.fst

/-- The states probed by a `minimax_decision_max` search (the root's own
key is never looked up nor written, so the root is excluded). -/
def dec_tree_max {σ μ : Type} (g : SGame σ μ) (fuel : Nat) (s : σ) : List σ :=
  (g.actions s).flatMap (fun a => atree g fuel false (g.result s a) 1)

/-- The states probed by a `minimax_decision_min` search. -/
def dec_tree_min {σ μ : Type} (g : SGame σ μ) (fuel : Nat) (s : σ) : List σ :=
  (g.actions s).flatMap (fun a => atree g fuel true (g.result s a) 1)

theorem ttLookup_eq_none {t : List (List Char × Int)} {k : List Char} :
    k ∉ ttKeys t → ttLookup t k = none := by
  induction t with
  | nil => intro; rfl
  | cons p rest ih =>
    intro h
    obtain ⟨k', v⟩ := p
    simp only [ttKeys, List.map_cons, List.mem_cons, not_or] at h
    have hne : k' ≠ k := fun hh => h.1 hh.symm
    simp only [ttLookup, if_neg hne]
    exact ih h.2

theorem ttLookup_mem {t : List (List Char × Int)} {k : List Char} {v : Int} :
    ttLookup t k = some v → k ∈ ttKeys t := by
  induction t with
  | nil => intro h; simp [ttLookup] at h
  | cons p rest ih =>
    intro h
    obtain ⟨k', v'⟩ := p
    by_cases hk : k' = k
    · subst hk
      exact List.mem_cons_self _ _
    · simp only [ttLookup, if_neg hk] at h
      exact List.mem_cons_of_mem _ (ih h)

theorem ite_gt_eq_max (b v : Int) : (if v > b then v else b) = max b v := by
  rcases le_or_lt v b with h | h
  · rw [if_neg (not_lt_of_le h), max_eq_left h]
  · rw [if_pos h, max_eq_right (le_of_lt h)]

theorem ite_lt_eq_min (b v : Int) : (if v < b then v else b) = min b v := by
  rcases le_or_lt b v with h | h
  · rw [if_neg (not_lt_of_le h), min_eq_left h]
  · rw [if_pos h, min_eq_right (le_of_lt h)]

/-- The plain maximizing fold over a (suffix of a) node's actions,
starting from an accumulated incumbent. -/
def pfold_max {σ μ : Type} (g : SGame σ μ) (fuel : Nat) (s : σ) (depth : Nat)
    (b : Int) (as : List μ) : Int :=
  as.foldl (fun b a => max b (mm_min g fuel (g.result s a) (depth + 1))) b

/-- The plain minimizing fold. -/
def pfold_min {σ μ : Type} (g : SGame σ μ) (fuel : Nat) (s : σ) (depth : Nat)
    (b : Int) (as : List μ) : Int :=
  as.foldl (fun b a => min b (mm_max g fuel (g.result s a) (depth + 1))) b

theorem pfold_max_acc {σ μ : Type} (g : SGame σ μ) (fuel : Nat) (s : σ) (depth : Nat) :
    ∀ (as : List μ) (b : Int), b ≤ pfold_max g fuel s depth b as := by
  intro as
  induction as with
  | nil => intro b; exact le_refl b
  | cons a as ih =>
    intro b
    calc b ≤ max b (mm_min g fuel (g.result s a) (depth + 1)) := le_max_left _ _
    _ ≤ pfold_max g fuel s depth (max b (mm_min g fuel (g.result s a) (depth + 1))) as := ih _

theorem pfold_min_acc {σ μ : Type} (g : SGame σ μ) (fuel : Nat) (s : σ) (depth : Nat) :
    ∀ (as : List μ) (b : Int), pfold_min g fuel s depth b as ≤ b := by
  intro as
  induction as with
  | nil => intro b; exact le_refl b
  | cons a as ih =>
    intro b
    calc pfold_min g fuel s depth (min b (mm_max g fuel (g.result s a) (depth + 1))) as
        ≤ min b (mm_max g fuel (g.result s a) (depth + 1)) := ih _
    _ ≤ b := min_le_left _ _

theorem pfold_max_mono {σ μ : Type} (g : SGame σ μ) (fuel : Nat) (s : σ) (depth : Nat) :
    ∀ (as : List μ) (b1 b2 : Int), b1 ≤ b2 →
    pfold_max g fuel s depth b1 as ≤ pfold_max g fuel s depth b2 as := by
  intro as
  induction as with
  | nil => intro b1 b2 h; exact h
  | cons a as ih =>
    intro b1 b2 h
    simp only [pfold_max, List.foldl_cons]
    exact ih _ _ (by omega)

theorem pfold_min_mono {σ μ : Type} (g : SGame σ μ) (fuel : Nat) (s : σ) (depth : Nat) :
    ∀ (as : List μ) (b1 b2 : Int), b1 ≤ b2 →
    pfold_min g fuel s depth b1 as ≤ pfold_min g fuel s depth b2 as := by
  intro as
  induction as with
  | nil => intro b1 b2 h; exact h
  | cons a as ih =>
    intro b1 b2 h
    simp only [pfold_min, List.foldl_cons]
    exact ih _ _ (by omega)

theorem pfold_max_le_max {σ μ : Type} (g : SGame σ μ) (fuel : Nat) (s : σ) (depth : Nat) :
    ∀ (as : List μ) (b c : Int),
    pfold_max g fuel s depth b as ≤ max b (pfold_max g fuel s depth c as) := by
  intro as
  induction as with
  | nil => intro b c; exact le_max_left _ _
  | cons a as ih =>
    intro b c
    have h1 := ih (max b (mm_min g fuel (g.result s a) (depth + 1)))
      (max c (mm_min g fuel (g.result s a) (depth + 1)))
    have h2 := pfold_max_acc g fuel s depth as (max c (mm_min g fuel (g.result s a) (depth + 1)))
    simp only [pfold_max, List.foldl_cons] at h1 h2 ⊢
    omega

theorem pfold_min_ge_min {σ μ : Type} (g : SGame σ μ) (fuel : Nat) (s : σ) (depth : Nat) :
    ∀ (as : List μ) (b c : Int),
    min b (pfold_min g fuel s depth c as) ≤ pfold_min g fuel s depth b as := by
  intro as
  induction as with
  | nil => intro b c; exact min_le_left _ _
  | cons a as ih =>
    intro b c
    have h1 := ih (min b (mm_max g fuel (g.result s a) (depth + 1)))
      (min c (mm_max g fuel (g.result s a) (depth + 1)))
    have h2 := pfold_min_acc g fuel s depth as (min c (mm_max g fuel (g.result s a) (depth + 1)))
    simp only [pfold_min, List.foldl_cons] at h1 h2 ⊢
    omega

theorem pfold_max_lt {σ μ : Type} (g : SGame σ μ) (fuel : Nat) (s : σ) (depth : Nat)
    (C : Int) :
    ∀ (as : List μ) (b : Int), b < C →
    (∀ a ∈ as, mm_min g fuel (g.result s a) (depth + 1) < C) →
    pfold_max g fuel s depth b as < C := by
  intro as
  induction as with
  | nil => intro b hb _; exact hb
  | cons a as ih =>
    intro b hb hall
    have h1 : mm_min g fuel (g.result s a) (depth + 1) < C := hall a (List.mem_cons_self _ _)
    simp only [pfold_max, List.foldl_cons]
    exact ih _ (by omega) fun a' ha' => hall a' (List.mem_cons_of_mem _ ha')

theorem pfold_min_gt {σ μ : Type} (g : SGame σ μ) (fuel : Nat) (s : σ) (depth : Nat)
    (C : Int) :
    ∀ (as : List μ) (b : Int), C < b →
    (∀ a ∈ as, C < mm_max g fuel (g.result s a) (depth + 1)) →
    C < pfold_min g fuel s depth b as := by
  intro as
  induction as with
  | nil => intro b hb _; exact hb
  | cons a as ih =>
    intro b hb hall
    have h1 : C < mm_max g fuel (g.result s a) (depth + 1) := hall a (List.mem_cons_self _ _)
    simp only [pfold_min, List.foldl_cons]
    exact ih _ (by omega) fun a' ha' => hall a' (List.mem_cons_of_mem _ ha')

/-- The contract's range obligation on leaf values, instantiated to the
engine's sentinels: utilities and heuristic evaluations lie strictly
inside `(-2^20, 2^20)`. -/
def bounded_leaves {σ μ : Type} (g : SGame σ μ) : Prop :=
  ∀ s : σ, (-ifny < g.utility s ∧ g.utility s < ifny) ∧ (-ifny < g.eval s ∧ g.eval s < ifny)

/-- The contract's obligation that an action list is never truly empty
(a pass token stands in when no real move exists). -/
def nonempty_actions {σ μ : Type} (g : SGame σ μ) : Prop :=
  ∀ s : σ, g.actions s ≠ []

theorem ifny_pos : (0 : Int) < ifny := by norm_num [ifny]

theorem mm_value_bounds {σ μ : Type} (g : SGame σ μ) (HB : bounded_leaves g)
    (HNE : nonempty_actions g) :
    ∀ (fuel : Nat) (isMax : Bool) (s : σ) (depth : Nat),
    -ifny < mm_value g fuel isMax s depth ∧ mm_value g fuel isMax s depth < ifny := by
  intro fuel
  induction fuel with
  | zero =>
    intro isMax s depth
    have := ifny_pos
    constructor <;> simp [mm_value] <;> omega
  | succ fuel ih =>
    intro isMax s depth
    by_cases ht : g.is_terminal s
    · simpa [mm_value, ht] using (HB s).1
    · by_cases hc : g.cutoff_test s depth
      · simpa [mm_value, ht, hc] using (HB s).2
      · cases hacts : g.actions s with
        | nil => exact absurd hacts (HNE s)
        | cons a rest =>
          cases isMax with
          | true =>
            have hval : mm_value g (fuel + 1) true s depth =
                pfold_max g fuel s depth (-ifny) (a :: rest) := by
              simp [mm_value, ht, hc, hacts, pfold_max, mm_min]
            constructor
            · rw [hval]
              have h1 : -ifny < mm_min g fuel (g.result s a) (depth + 1) := (ih false _ _).1
              have h2 : max (-ifny) (mm_min g fuel (g.result s a) (depth + 1)) ≤
                  pfold_max g fuel s depth
                    (max (-ifny) (mm_min g fuel (g.result s a) (depth + 1))) rest :=
                pfold_max_acc g fuel s depth rest _
              simp only [pfold_max, List.foldl_cons] at h2 ⊢
              omega
            · rw [hval]
              refine pfold_max_lt g fuel s depth ifny _ (-ifny) (by have := ifny_pos; omega) ?_
              intro a' _
              exact (ih false _ _).2
          | false =>
            have hval : mm_value g (fuel + 1) false s depth =
                pfold_min g fuel s depth ifny (a :: rest) := by
              simp [mm_value, ht, hc, hacts, pfold_min, mm_max]
            constructor
            · rw [hval]
              refine pfold_min_gt g fuel s depth (-ifny) _ ifny (by have := ifny_pos; omega) ?_
              intro a' _
              exact (ih true _ _).1
            · rw [hval]
              have h1 : mm_max g fuel (g.result s a) (depth + 1) < ifny := (ih true _ _).2
              have h2 : pfold_min g fuel s depth
                  (min ifny (mm_max g fuel (g.result s a) (depth + 1))) rest ≤
                  min ifny (mm_max g fuel (g.result s a) (depth + 1)) :=
                pfold_min_acc g fuel s depth rest _
              simp only [pfold_min, List.foldl_cons] at h2 ⊢
              omega

theorem max_loop_nil {σ μ : Type} (g : SGame σ μ) (fuel : Nat) (s : σ)
    (best alpha beta : Int) (depth : Nat) (st : MMState) :
    max_loop g fuel s [] best alpha beta depth st = (best, st, false) := rfl

theorem max_loop_cons {σ μ : Type} (g : SGame σ μ) (fuel : Nat) (s : σ) (a : μ)
    (as : List μ) (best alpha beta : Int) (depth : Nat) (st : MMState) :
    max_loop g fuel s (a :: as) best alpha beta depth st =
      (if (if (min_value g fuel (g.result s a) alpha beta (depth + 1) st).1 > best
           then (min_value g fuel (g.result s a) alpha beta (depth + 1) st).1 else best) ≥ beta
       then ((if (min_value g fuel (g.result s a) alpha beta (depth + 1) st).1 > best
              then (min_value g fuel (g.result s a) alpha beta (depth + 1) st).1 else best),
             (min_value g fuel (g.result s a) alpha beta (depth + 1) st).2, true)
       else max_loop g fuel s as
         (if (min_value g fuel (g.result s a) alpha beta (depth + 1) st).1 > best
          then (min_value g fuel (g.result s a) alpha beta (depth + 1) st).1 else best)
         (max alpha (if (min_value g fuel (g.result s a) alpha beta (depth + 1) st).1 > best
          then (min_value g fuel (g.result s a) alpha beta (depth + 1) st).1 else best))
         beta depth
         (min_value g fuel (g.result s a) alpha beta (depth + 1) st).2) := rfl

theorem min_loop_nil {σ μ : Type} (g : SGame σ μ) (fuel : Nat) (s : σ)
    (best alpha beta : Int) (depth : Nat) (st : MMState) :
    min_loop g fuel s [] best alpha beta depth st = (best, st, false) := rfl

theorem min_loop_cons {σ μ : Type} (g : SGame σ μ) (fuel : Nat) (s : σ) (a : μ)
    (as : List μ) (best alpha beta : Int) (depth : Nat) (st : MMState) :
    min_loop g fuel s (a :: as) best alpha beta depth st =
      (if (if (max_value g fuel (g.result s a) alpha beta (depth + 1) st).1 < best
           then (max_value g fuel (g.result s a) alpha beta (depth + 1) st).1 else best) ≤ alpha
       then ((if (max_value g fuel (g.result s a) alpha beta (depth + 1) st).1 < best
              then (max_value g fuel (g.result s a) alpha beta (depth + 1) st).1 else best),
             (max_value g fuel (g.result s a) alpha beta (depth + 1) st).2, true)
       else min_loop g fuel s as
         (if (max_value g fuel (g.result s a) alpha beta (depth + 1) st).1 < best
          then (max_value g fuel (g.result s a) alpha beta (depth + 1) st).1 else best)
         alpha
         (min beta (if (max_value g fuel (g.result s a) alpha beta (depth + 1) st).1 < best
          then (max_value g fuel (g.result s a) alpha beta (depth + 1) st).1 else best))
         depth
         (max_value g fuel (g.result s a) alpha beta (depth + 1) st).2) := rfl

/-- The fail-soft specification of a child evaluator call with respect to
the plain minimax value `p`, together with the bookkeeping that its table
only grows by keys of the child's search tree. -/
def child_spec_min {σ μ : Type} (g : SGame σ μ) (fuel : Nat) (depth : Nat) : Prop :=
  ∀ (s' : σ) (a' b' : Int) (st' : MMState),
    -ifny ≤ a' → b' ≤ ifny → a' < b' →
    (tstrings g (atree g fuel false s' (depth + 1))).Nodup →
    (∀ k ∈ ttKeys st'.table, k ∉ tstrings g (atree g fuel false s' (depth + 1))) →
    (∀ k ∈ ttKeys (min_value g fuel s' a' b' (depth + 1) st').2.table,
      k ∈ ttKeys st'.table ∨ k ∈ tstrings g (atree g fuel false s' (depth + 1))) ∧
    ((min_value g fuel s' a' b' (depth + 1) st').1 ≤ a' →
      mm_min g fuel s' (depth + 1) ≤ (min_value g fuel s' a' b' (depth + 1) st').1) ∧
    (b' ≤ (min_value g fuel s' a' b' (depth + 1) st').1 →
      (min_value g fuel s' a' b' (depth + 1) st').1 ≤ mm_min g fuel s' (depth + 1)) ∧
    (a' < (min_value g fuel s' a' b' (depth + 1) st').1 →
      (min_value g fuel s' a' b' (depth + 1) st').1 < b' →
      (min_value g fuel s' a' b' (depth + 1) st').1 = mm_min g fuel s' (depth + 1))

/-- The mirror specification for `__max_value` children. -/
def child_spec_max {σ μ : Type} (g : SGame σ μ) (fuel : Nat) (depth : Nat) : Prop :=
  ∀ (s' : σ) (a' b' : Int) (st' : MMState),
    -ifny ≤ a' → b' ≤ ifny → a' < b' →
    (tstrings g (atree g fuel true s' (depth + 1))).Nodup →
    (∀ k ∈ ttKeys st'.table, k ∉ tstrings g (atree g fuel true s' (depth + 1))) →
    (∀ k ∈ ttKeys (max_value g fuel s' a' b' (depth + 1) st').2.table,
      k ∈ ttKeys st'.table ∨ k ∈ tstrings g (atree g fuel true s' (depth + 1))) ∧
    ((max_value g fuel s' a' b' (depth + 1) st').1 ≤ a' →
      mm_max g fuel s' (depth + 1) ≤ (max_value g fuel s' a' b' (depth + 1) st').1) ∧
    (b' ≤ (max_value g fuel s' a' b' (depth + 1) st').1 →
      (max_value g fuel s' a' b' (depth + 1) st').1 ≤ mm_max g fuel s' (depth + 1)) ∧
    (a' < (max_value g fuel s' a' b' (depth + 1) st').1 →
      (max_value g fuel s' a' b' (depth + 1) st').1 < b' →
      (max_value g fuel s' a' b' (depth + 1) st').1 = mm_max g fuel s' (depth + 1))

theorem max_loop_sound {σ μ : Type} (g : SGame σ μ) (fuel depth : Nat) (s : σ)
    (alpha0 beta : Int) (hchild : child_spec_min g fuel depth)
    (hα0 : -ifny ≤ alpha0) (hβ : beta ≤ ifny) (hαβ : alpha0 < beta) :
    ∀ (as : List μ) (best : Int) (st : MMState),
    -ifny ≤ best → best < beta →
    (tstrings g (as.flatMap (fun a => atree g fuel false (g.result s a) (depth + 1)))).Nodup →
    (∀ k ∈ ttKeys st.table,
      k ∉ tstrings g (as.flatMap (fun a => atree g fuel false (g.result s a) (depth + 1)))) →
    (∀ k ∈ ttKeys (max_loop g fuel s as best (max alpha0 best) beta depth st).2.1.table,
      k ∈ ttKeys st.table ∨
      k ∈ tstrings g (as.flatMap (fun a => atree g fuel false (g.result s a) (depth + 1)))) ∧
    ((max_loop g fuel s as best (max alpha0 best) beta depth st).2.2 = true →
      beta ≤ (max_loop g fuel s as best (max alpha0 best) beta depth st).1 ∧
      (max_loop g fuel s as best (max alpha0 best) beta depth st).1 ≤
        pfold_max g fuel s depth best as) ∧
    ((max_loop g fuel s as best (max alpha0 best) beta depth st).2.2 = false →
      (max_loop g fuel s as best (max alpha0 best) beta depth st).1 < beta ∧
      ((max_loop g fuel s as best (max alpha0 best) beta depth st).1 ≤ alpha0 →
        pfold_max g fuel s depth best as ≤
        (max_loop g fuel s as best (max alpha0 best) beta depth st).1) ∧
      (alpha0 < (max_loop g fuel s as best (max alpha0 best) beta depth st).1 →
        (max_loop g fuel s as best (max alpha0 best) beta depth st).1 =
        pfold_max g fuel s depth best as)) := by
  intro as
  induction as with
  | nil =>
    intro best st hb1 hb2 _ _
    rw [max_loop_nil]
    refine ⟨fun k hk => Or.inl hk, fun h => by simp at h, fun _ => ⟨hb2, ?_, ?_⟩⟩
    · intro; exact le_refl best
    · intro; rfl
  | cons a as ih =>
    intro best st hb1 hb2 hnd hdisj
    have htstr : tstrings g
        ((a :: as).flatMap (fun a => atree g fuel false (g.result s a) (depth + 1))) =
        tstrings g (atree g fuel false (g.result s a) (depth + 1)) ++
        tstrings g (as.flatMap (fun a => atree g fuel false (g.result s a) (depth + 1))) := by
      simp [tstrings, List.flatMap_cons]
    rw [htstr] at hnd hdisj ⊢
    have hnd' := List.nodup_append.mp hnd
    have hdisj_a : ∀ k ∈ ttKeys st.table,
        k ∉ tstrings g (atree g fuel false (g.result s a) (depth + 1)) :=
      fun k hk hmem => hdisj k hk (List.mem_append_left _ hmem)
    have hdisj_as : ∀ k ∈ ttKeys st.table,
        k ∉ tstrings g (as.flatMap (fun a => atree g fuel false (g.result s a) (depth + 1))) :=
      fun k hk hmem => hdisj k hk (List.mem_append_right _ hmem)
    have hαb : max alpha0 best < beta := by omega
    have hc := hchild (g.result s a) (max alpha0 best) beta st (by omega) hβ hαb
      hnd'.1 hdisj_a
    set v := (min_value g fuel (g.result s a) (max alpha0 best) beta (depth + 1) st).1 with hv
    set rst := (min_value g fuel (g.result s a) (max alpha0 best) beta (depth + 1) st).2 with hrst
    set p := mm_min g fuel (g.result s a) (depth + 1) with hp
    have hiteq : (if v > best then v else best) = max best v := ite_gt_eq_max best v
    have hpfold : pfold_max g fuel s depth best (a :: as) = pfold_max g fuel s depth (max best p) as := by
      simp [pfold_max]
    by_cases hearly : max best v ≥ beta
    · rw [max_loop_cons, ← hv, ← hrst, hiteq, if_pos hearly]
      have hvb : beta ≤ v := by omega
      have hvp : v ≤ p := hc.2.2.1 hvb
      refine ⟨?_, fun _ => ⟨hearly, ?_⟩, fun hfalse => by simp at hfalse⟩
      · intro k hk
        rcases hc.1 k hk with h' | h'
        · exact Or.inl h'
        · exact Or.inr (List.mem_append_left _ h')
      · rw [hpfold]
        have h1 := pfold_max_acc g fuel s depth as (max best p)
        omega
    · rw [max_loop_cons, ← hv, ← hrst, hiteq, if_neg hearly]
      have hb2' : max best v < beta := by omega
      have hmaxeq : max (max alpha0 best) (max best v) = max alpha0 (max best v) := by omega
      rw [hmaxeq]
      have hdisj_rst : ∀ k ∈ ttKeys rst.table,
          k ∉ tstrings g (as.flatMap (fun a => atree g fuel false (g.result s a) (depth + 1))) := by
        intro k hk
        rcases hc.1 k hk with h' | h'
        · exact hdisj_as k h'
        · exact fun hmem => (List.disjoint_left.mp hnd'.2.2) h' hmem
      have hIH := ih (max best v) rst (by omega) hb2' hnd'.2.1 hdisj_rst
      have hple : p ≤ max best v := by
        by_cases hvbest : v > best
        · by_cases hvα : v ≤ max alpha0 best
          · have := hc.2.1 hvα
            omega
          · have hvlt : v < beta := by omega
            have := hc.2.2.2 (by omega) hvlt
            omega
        · have hvα : v ≤ max alpha0 best := by omega
          have := hc.2.1 hvα
          omega
      refine ⟨?_, ?_, ?_⟩
      · intro k hk
        rcases hIH.1 k hk with h' | h'
        · rcases hc.1 k h' with h'' | h''
          · exact Or.inl h''
          · exact Or.inr (List.mem_append_left _ h'')
        · exact Or.inr (List.mem_append_right _ h')
      · intro htrue
        obtain ⟨hge, hle⟩ := hIH.2.1 htrue
        refine ⟨hge, ?_⟩
        rw [hpfold]
        have h1 := pfold_max_le_max g fuel s depth as (max best v) (max best p)
        omega
      · intro hfalse
        obtain ⟨hlt, hA, hB⟩ := hIH.2.2 hfalse
        refine ⟨hlt, ?_, ?_⟩
        · intro hle
          rw [hpfold]
          have h1 := pfold_max_mono g fuel s depth as (max best p) (max best v) (by omega)
          have h2 := hA hle
          omega
        · intro hgt
          have hBv := hB hgt
          rw [hpfold]
          by_cases hvbest : v > best
          · by_cases hvα : v ≤ max alpha0 best
            · have hvα0 : v ≤ alpha0 := by omega
              have hge : pfold_max g fuel s depth (max best p) as ≤
                  pfold_max g fuel s depth (max best v) as :=
                pfold_max_mono g fuel s depth as _ _ (by omega)
              have hle2 := pfold_max_le_max g fuel s depth as (max best v) (max best p)
              omega
            · have hvlt : v < beta := by omega
              have hpe := hc.2.2.2 (by omega) hvlt
              rw [show max best p = max best v from by omega]
              exact hBv
          · rw [show max best p = max best v from by omega]
            exact hBv

theorem min_loop_sound {σ μ : Type} (g : SGame σ μ) (fuel depth : Nat) (s : σ)
    (alpha beta0 : Int) (hchild : child_spec_max g fuel depth)
    (hα0 : -ifny ≤ alpha) (hβ : beta0 ≤ ifny) (hαβ : alpha < beta0) :
    ∀ (as : List μ) (best : Int) (st : MMState),
    best ≤ ifny → alpha < best →
    (tstrings g (as.flatMap (fun a => atree g fuel true (g.result s a) (depth + 1)))).Nodup →
    (∀ k ∈ ttKeys st.table,
      k ∉ tstrings g (as.flatMap (fun a => atree g fuel true (g.result s a) (depth + 1)))) →
    (∀ k ∈ ttKeys (min_loop g fuel s as best alpha (min beta0 best) depth st).2.1.table,
      k ∈ ttKeys st.table ∨
      k ∈ tstrings g (as.flatMap (fun a => atree g fuel true (g.result s a) (depth + 1)))) ∧
    ((min_loop g fuel s as best alpha (min beta0 best) depth st).2.2 = true →
      (min_loop g fuel s as best alpha (min beta0 best) depth st).1 ≤ alpha ∧
      pfold_min g fuel s depth best as ≤
        (min_loop g fuel s as best alpha (min beta0 best) depth st).1) ∧
    ((min_loop g fuel s as best alpha (min beta0 best) depth st).2.2 = false →
      alpha < (min_loop g fuel s as best alpha (min beta0 best) depth st).1 ∧
      (beta0 ≤ (min_loop g fuel s as best alpha (min beta0 best) depth st).1 →
        (min_loop g fuel s as best alpha (min beta0 best) depth st).1 ≤
        pfold_min g fuel s depth best as) ∧
      ((min_loop g fuel s as best alpha (min beta0 best) depth st).1 < beta0 →
        (min_loop g fuel s as best alpha (min beta0 best) depth st).1 =
        pfold_min g fuel s depth best as)) := by
  intro as
  induction as with
  | nil =>
    intro best st hb1 hb2 _ _
    rw [min_loop_nil]
    refine ⟨fun k hk => Or.inl hk, fun h => by simp at h, fun _ => ⟨hb2, ?_, ?_⟩⟩
    · intro; exact le_refl best
    · intro; rfl
  | cons a as ih =>
    intro best st hb1 hb2 hnd hdisj
    have htstr : tstrings g
        ((a :: as).flatMap (fun a => atree g fuel true (g.result s a) (depth + 1))) =
        tstrings g (atree g fuel true (g.result s a) (depth + 1)) ++
        tstrings g (as.flatMap (fun a => atree g fuel true (g.result s a) (depth + 1))) := by
      simp [tstrings, List.flatMap_cons]
    rw [htstr] at hnd hdisj ⊢
    have hnd' := List.nodup_append.mp hnd
    have hdisj_a : ∀ k ∈ ttKeys st.table,
        k ∉ tstrings g (atree g fuel true (g.result s a) (depth + 1)) :=
      fun k hk hmem => hdisj k hk (List.mem_append_left _ hmem)
    have hdisj_as : ∀ k ∈ ttKeys st.table,
        k ∉ tstrings g (as.flatMap (fun a => atree g fuel true (g.result s a) (depth + 1))) :=
      fun k hk hmem => hdisj k hk (List.mem_append_right _ hmem)
    have hαb : alpha < min beta0 best := by omega
    have hc := hchild (g.result s a) alpha (min beta0 best) st hα0 (by omega) hαb
      hnd'.1 hdisj_a
    set v := (max_value g fuel (g.result s a) alpha (min beta0 best) (depth + 1) st).1 with hv
    set rst := (max_value g fuel (g.result s a) alpha (min beta0 best) (depth + 1) st).2 with hrst
    set p := mm_max g fuel (g.result s a) (depth + 1) with hp
    have hiteq : (if v < best then v else best) = min best v := ite_lt_eq_min best v
    have hpfold : pfold_min g fuel s depth best (a :: as) =
        pfold_min g fuel s depth (min best p) as := by
      simp [pfold_min]
    by_cases hearly : min best v ≤ alpha
    · rw [min_loop_cons, ← hv, ← hrst, hiteq, if_pos hearly]
      have hvb : v ≤ alpha := by omega
      have hvp : p ≤ v := hc.2.1 hvb
      refine ⟨?_, fun _ => ⟨hearly, ?_⟩, fun hfalse => by simp at hfalse⟩
      · intro k hk
        rcases hc.1 k hk with h' | h'
        · exact Or.inl h'
        · exact Or.inr (List.mem_append_left _ h')
      · rw [hpfold]
        have h1 := pfold_min_acc g fuel s depth as (min best p)
        omega
    · rw [min_loop_cons, ← hv, ← hrst, hiteq, if_neg hearly]
      have hb2' : alpha < min best v := by omega
      have hmineq : min (min beta0 best) (min best v) = min beta0 (min best v) := by omega
      rw [hmineq]
      have hdisj_rst : ∀ k ∈ ttKeys rst.table,
          k ∉ tstrings g (as.flatMap (fun a => atree g fuel true (g.result s a) (depth + 1))) := by
        intro k hk
        rcases hc.1 k hk with h' | h'
        · exact hdisj_as k h'
        · exact fun hmem => (List.disjoint_left.mp hnd'.2.2) h' hmem
      have hIH := ih (min best v) rst (by omega) hb2' hnd'.2.1 hdisj_rst
      have hple : min best v ≤ p := by
        by_cases hvbest : v < best
        · by_cases hvβ : min beta0 best ≤ v
          · have := hc.2.2.1 hvβ
            omega
          · have := hc.2.2.2 (by omega) (by omega)
            omega
        · have hvβ : min beta0 best ≤ v := by omega
          have := hc.2.2.1 hvβ
          omega
      refine ⟨?_, ?_, ?_⟩
      · intro k hk
        rcases hIH.1 k hk with h' | h'
        · rcases hc.1 k h' with h'' | h''
          · exact Or.inl h''
          · exact Or.inr (List.mem_append_left _ h'')
        · exact Or.inr (List.mem_append_right _ h')
      · intro htrue
        obtain ⟨hge, hle⟩ := hIH.2.1 htrue
        refine ⟨hge, ?_⟩
        rw [hpfold]
        have h1 := pfold_min_ge_min g fuel s depth as (min best v) (min best p)
        omega
      · intro hfalse
        obtain ⟨hlt, hA, hB⟩ := hIH.2.2 hfalse
        refine ⟨hlt, ?_, ?_⟩
        · intro hle
          rw [hpfold]
          have h1 := pfold_min_mono g fuel s depth as (min best v) (min best p) (by omega)
          have h2 := hA hle
          omega
        · intro hgt
          have hBv := hB hgt
          rw [hpfold]
          by_cases hvbest : v < best
          · by_cases hvβ : min beta0 best ≤ v
            · have hvβ0 : beta0 ≤ v := by omega
              have hge : pfold_min g fuel s depth (min best v) as ≤
                  pfold_min g fuel s depth (min best p) as :=
                pfold_min_mono g fuel s depth as _ _ (by omega)
              have hle2 := pfold_min_ge_min g fuel s depth as (min best v) (min best p)
              omega
            · have hpe := hc.2.2.2 (by omega) (by omega)
              rw [show min best p = min best v from by omega]
              exact hBv
          · rw [show min best p = min best v from by omega]
            exact hBv

/-- The fail-soft specification of a node evaluation at a given fuel: when
the incoming table cannot be hit anywhere in the node's search tree and
that tree has no internal transposition, the returned value relates to the
plain minimax value as a fail-soft alpha-beta value, and the table only
acquires keys of the tree. -/
def node_spec {σ μ : Type} (g : SGame σ μ) (fuel : Nat) : Prop :=
  ∀ (isMax : Bool) (s : σ) (alpha beta : Int) (d : Nat) (st : MMState),
    -ifny ≤ alpha → beta ≤ ifny → alpha < beta →
    (tstrings g (atree g fuel isMax s d)).Nodup →
    (∀ k ∈ ttKeys st.table, k ∉ tstrings g (atree g fuel isMax s d)) →
    (∀ k ∈ ttKeys (ab_value g fuel isMax s alpha beta d st).2.table,
      k ∈ ttKeys st.table ∨ k ∈ tstrings g (atree g fuel isMax s d)) ∧
    ((ab_value g fuel isMax s alpha beta d st).1 ≤ alpha →
      mm_value g fuel isMax s d ≤ (ab_value g fuel isMax s alpha beta d st).1) ∧
    (beta ≤ (ab_value g fuel isMax s alpha beta d st).1 →
      (ab_value g fuel isMax s alpha beta d st).1 ≤ mm_value g fuel isMax s d) ∧
    (alpha < (ab_value g fuel isMax s alpha beta d st).1 →
      (ab_value g fuel isMax s alpha beta d st).1 < beta →
      (ab_value g fuel isMax s alpha beta d st).1 = mm_value g fuel isMax s d)

theorem node_spec_child_min {σ μ : Type} (g : SGame σ μ) (fuel : Nat)
    (h : node_spec g fuel) (depth : Nat) : child_spec_min g fuel depth :=
  fun s' a' b' st' h1 h2 h3 h4 h5 => h false s' a' b' (depth + 1) st' h1 h2 h3 h4 h5

theorem node_spec_child_max {σ μ : Type} (g : SGame σ μ) (fuel : Nat)
    (h : node_spec g fuel) (depth : Nat) : child_spec_max g fuel depth :=
  fun s' a' b' st' h1 h2 h3 h4 h5 => h true s' a' b' (depth + 1) st' h1 h2 h3 h4 h5

theorem ab_sound {σ μ : Type} (g : SGame σ μ) : ∀ fuel : Nat, node_spec g fuel := by
  intro fuel
  induction fuel with
  | zero =>
    intro isMax s alpha beta d st _ _ _ _ _
    refine ⟨fun k hk => Or.inl hk, ?_, ?_, ?_⟩ <;> intros <;> simp_all [ab_value, mm_value]
  | succ fuel IH =>
    intro isMax s alpha beta d st h1 h2 h3 hnd hdisj
    have hhead : g.transposition_string s ∈ tstrings g (atree g (fuel + 1) isMax s d) := by
      simp [atree, tstrings]
    have hlookup : ttLookup st.table (g.transposition_string s) = none :=
      ttLookup_eq_none (fun hmem => hdisj _ hmem hhead)
    by_cases ht : g.is_terminal s
    · have hval : ab_value g (fuel + 1) isMax s alpha beta d st = (g.utility s, st) := by
        simp [ab_value, hlookup, ht]
      have hmm : mm_value g (fuel + 1) isMax s d = g.utility s := by
        simp [mm_value, ht]
      rw [hval, hmm]
      exact ⟨fun k hk => Or.inl hk, fun _ => le_refl _, fun _ => le_refl _, fun _ _ => rfl⟩
    · by_cases hc : g.cutoff_test s d
      · have hval : ab_value g (fuel + 1) isMax s alpha beta d st = (g.eval s, st) := by
          simp [ab_value, hlookup, ht, hc]
        have hmm : mm_value g (fuel + 1) isMax s d = g.eval s := by
          simp [mm_value, ht, hc]
        rw [hval, hmm]
        exact ⟨fun k hk => Or.inl hk, fun _ => le_refl _, fun _ => le_refl _, fun _ _ => rfl⟩
      · have htail : tstrings g (atree g (fuel + 1) isMax s d) =
            g.transposition_string s ::
            tstrings g ((g.actions s).flatMap
              (fun a => atree g fuel (!isMax) (g.result s a) (d + 1))) := by
          simp [atree, tstrings, ht, hc]
        rw [htail] at hnd hdisj ⊢
        have hnd' := List.nodup_cons.mp hnd
        have hdisj' : ∀ k ∈ ttKeys st.table,
            k ∉ tstrings g ((g.actions s).flatMap
              (fun a => atree g fuel (!isMax) (g.result s a) (d + 1))) :=
          fun k hk hmem => hdisj k hk (List.mem_cons_of_mem _ hmem)
        set st1 : MMState := { nodes_expanded := st.nodes_expanded + 1, table := st.table }
          with hst1
        have hkeys1 : ttKeys st1.table = ttKeys st.table := rfl
        cases isMax with
        | true =>
          have hml : ∀ (acts : List μ) (b α' β' : Int) (stx : MMState),
              max_loop_h g
                (fun s' alpha' beta' st' => ab_value g fuel false s' alpha' beta' (d + 1) st')
                s acts b α' β' stx = max_loop g fuel s acts b α' β' d stx :=
            fun _ _ _ _ _ => rfl
          have hval : ab_value g (fuel + 1) true s alpha beta d st =
              (match max_loop g fuel s (g.actions s) (-ifny) alpha beta d st1 with
               | (best, st2, true) => (best, st2)
               | (best, st2, false) =>
                 (best, { nodes_expanded := st2.nodes_expanded,
                          table := (g.transposition_string s, best) :: st2.table })) := by
            rw [show ab_value g (fuel + 1) true s alpha beta d st =
              max_value g (fuel + 1) s alpha beta d st from rfl, max_value_succ, hlookup]
            simp [ht, hc, hst1]
          have hmm : mm_value g (fuel + 1) true s d =
              pfold_max g fuel s d (-ifny) (g.actions s) := by
            simp [mm_value, ht, hc, pfold_max, mm_min]
          have hloopS := max_loop_sound g fuel d s alpha beta
            (node_spec_child_min g fuel IH d) h1 h2 h3 (g.actions s) (-ifny) st1
            (le_refl _) (by omega) (by simpa using hnd'.2) (by rw [hkeys1]; simpa using hdisj')
          rw [show max alpha (-ifny) = alpha from by omega] at hloopS
          rcases hloop : max_loop g fuel s (g.actions s) (-ifny) alpha beta d st1
            with ⟨bf, st2, flag⟩
          rw [hloop] at hloopS
          cases flag with
          | true =>
            obtain ⟨hge, hle⟩ := hloopS.2.1 rfl
            have hv1 : (ab_value g (fuel + 1) true s alpha beta d st).1 = bf := by
              rw [hval, hloop]
            have hv2 : (ab_value g (fuel + 1) true s alpha beta d st).2 = st2 := by
              rw [hval, hloop]
            rw [hv1, hv2, hmm]
            refine ⟨?_, ?_, ?_, ?_⟩
            · intro k hk
              rcases hloopS.1 k hk with h' | h'
              · rw [hkeys1] at h'
                exact Or.inl h'
              · exact Or.inr (List.mem_cons_of_mem _ (by simpa using h'))
            · intro hva
              omega
            · intro
              exact hle
            · intro _ hvb
              omega
          | false =>
            obtain ⟨hlt, hA, hB⟩ := hloopS.2.2 rfl
            have hv1 : (ab_value g (fuel + 1) true s alpha beta d st).1 = bf := by
              rw [hval, hloop]
            have hv2 : (ab_value g (fuel + 1) true s alpha beta d st).2 =
                { nodes_expanded := st2.nodes_expanded,
                  table := (g.transposition_string s, bf) :: st2.table } := by
              rw [hval, hloop]
            rw [hv1, hv2, hmm]
            refine ⟨?_, ?_, ?_, ?_⟩
            · intro k hk
              simp only [ttKeys, List.map_cons, List.mem_cons] at hk
              rcases hk with hk | hk
              · exact Or.inr (by rw [hk]; exact List.mem_cons_self _ _)
              · rcases hloopS.1 k hk with h' | h'
                · rw [hkeys1] at h'
                  exact Or.inl h'
                · exact Or.inr (List.mem_cons_of_mem _ (by simpa using h'))
            · intro hva
              exact hA hva
            · intro hvb
              omega
            · intro hgt _
              exact hB hgt
        | false =>
          have hml : ∀ (acts : List μ) (b α' β' : Int) (stx : MMState),
              min_loop_h g
                (fun s' alpha' beta' st' => ab_value g fuel true s' alpha' beta' (d + 1) st')
                s acts b α' β' stx = min_loop g fuel s acts b α' β' d stx :=
            fun _ _ _ _ _ => rfl
          have hval : ab_value g (fuel + 1) false s alpha beta d st =
              (match min_loop g fuel s (g.actions s) ifny alpha beta d st1 with
               | (best, st2, true) => (best, st2)
               | (best, st2, false) =>
                 (best, { nodes_expanded := st2.nodes_expanded,
                          table := (g.transposition_string s, best) :: st2.table })) := by
            rw [show ab_value g (fuel + 1) false s alpha beta d st =
              min_value g (fuel + 1) s alpha beta d st from rfl, min_value_succ, hlookup]
            simp [ht, hc, hst1]
          have hmm : mm_value g (fuel + 1) false s d =
              pfold_min g fuel s d ifny (g.actions s) := by
            simp [mm_value, ht, hc, pfold_min, mm_max]
          have hloopS := min_loop_sound g fuel d s alpha beta
            (node_spec_child_max g fuel IH d) h1 h2 h3 (g.actions s) ifny st1
            (le_refl _) (by omega) (by simpa using hnd'.2) (by rw [hkeys1]; simpa using hdisj')
          rw [show min beta ifny = beta from by omega] at hloopS
          rcases hloop : min_loop g fuel s (g.actions s) ifny alpha beta d st1
            with ⟨bf, st2, flag⟩
          rw [hloop] at hloopS
          cases flag with
          | true =>
            obtain ⟨hge, hle⟩ := hloopS.2.1 rfl
            have hv1 : (ab_value g (fuel + 1) false s alpha beta d st).1 = bf := by
              rw [hval, hloop]
            have hv2 : (ab_value g (fuel + 1) false s alpha beta d st).2 = st2 := by
              rw [hval, hloop]
            rw [hv1, hv2, hmm]
            refine ⟨?_, ?_, ?_, ?_⟩
            · intro k hk
              rcases hloopS.1 k hk with h' | h'
              · rw [hkeys1] at h'
                exact Or.inl h'
              · exact Or.inr (List.mem_cons_of_mem _ (by simpa using h'))
            · intro
              exact hle
            · intro hvb
              omega
            · intro _ hvb
              omega
          | false =>
            obtain ⟨hlt, hA, hB⟩ := hloopS.2.2 rfl
            have hv1 : (ab_value g (fuel + 1) false s alpha beta d st).1 = bf := by
              rw [hval, hloop]
            have hv2 : (ab_value g (fuel + 1) false s alpha beta d st).2 =
                { nodes_expanded := st2.nodes_expanded,
                  table := (g.transposition_string s, bf) :: st2.table } := by
              rw [hval, hloop]
            rw [hv1, hv2, hmm]
            refine ⟨?_, ?_, ?_, ?_⟩
            · intro k hk
              simp only [ttKeys, List.map_cons, List.mem_cons] at hk
              rcases hk with hk | hk
              · exact Or.inr (by rw [hk]; exact List.mem_cons_self _ _)
              · rcases hloopS.1 k hk with h' | h'
                · rw [hkeys1] at h'
                  exact Or.inl h'
                · exact Or.inr (List.mem_cons_of_mem _ (by simpa using h'))
            · intro hva
              omega
            · intro hvb
              exact hA hvb
            · intro _ hgt
              exact hB hgt

theorem root_loop_max_sound {σ μ : Type} (g : SGame σ μ) (HB : bounded_leaves g)
    (HNE : nonempty_actions g) (fuel : Nat) (s : σ) :
    ∀ (as : List μ) (best : Int) (act : Option μ) (st : MMState),
    -ifny ≤ best → best < ifny →
    (tstrings g (as.flatMap (fun a => atree g fuel false (g.result s a) 1))).Nodup →
    (∀ k ∈ ttKeys st.table,
      k ∉ tstrings g (as.flatMap (fun a => atree g fuel false (g.result s a) 1))) →
    (root_loop_max g fuel s as best act best ifny st).best = pfold_max g fuel s 0 best as := by
  intro as
  induction as with
  | nil => intro best act st _ _ _ _; rfl
  | cons a as ih =>
    intro best act st hb1 hb2 hnd hdisj
    have htstr : tstrings g
        ((a :: as).flatMap (fun a => atree g fuel false (g.result s a) 1)) =
        tstrings g (atree g fuel false (g.result s a) 1) ++
        tstrings g (as.flatMap (fun a => atree g fuel false (g.result s a) 1)) := by
      simp [tstrings, List.flatMap_cons]
    rw [htstr] at hnd hdisj
    have hnd' := List.nodup_append.mp hnd
    have hdisj_a : ∀ k ∈ ttKeys st.table,
        k ∉ tstrings g (atree g fuel false (g.result s a) 1) :=
      fun k hk hmem => hdisj k hk (List.mem_append_left _ hmem)
    have hdisj_as : ∀ k ∈ ttKeys st.table,
        k ∉ tstrings g (as.flatMap (fun a => atree g fuel false (g.result s a) 1)) :=
      fun k hk hmem => hdisj k hk (List.mem_append_right _ hmem)
    have hc := node_spec_child_min g fuel (ab_sound g fuel) 0 (g.result s a) best ifny st
      hb1 (le_refl _) hb2 hnd'.1 hdisj_a
    set v := (min_value g fuel (g.result s a) best ifny 1 st).1 with hv
    set rst := (min_value g fuel (g.result s a) best ifny 1 st).2 with hrst
    set p := mm_min g fuel (g.result s a) 1 with hp
    have hpb : -ifny < p ∧ p < ifny := mm_value_bounds g HB HNE fuel false (g.result s a) 1
    have hdisj_rst : ∀ k ∈ ttKeys rst.table,
        k ∉ tstrings g (as.flatMap (fun a => atree g fuel false (g.result s a) 1)) := by
      intro k hk
      rcases hc.1 k hk with h' | h'
      · exact hdisj_as k h'
      · exact fun hmem => (List.disjoint_left.mp hnd'.2.2) h' hmem
    have hpfold : pfold_max g fuel s 0 best (a :: as) = pfold_max g fuel s 0 (max best p) as := by
      simp [pfold_max]
    rw [hpfold]
    by_cases hvgt : v > best
    · rcases lt_or_le v ifny with hvlt | hvge
      · have hpe : v = p := hc.2.2.2 hvgt hvlt
        have hstep : root_loop_max g fuel s (a :: as) best act best ifny st =
            root_loop_max g fuel s as v (some a) (max best v) ifny rst := by
          simp only [root_loop_max, ← hv, ← hrst, if_pos hvgt]
        rw [hstep, show max best v = v from by omega,
          show max best p = v from by omega]
        exact ih v (some a) rst (by omega) (by omega) hnd'.2.1 hdisj_rst
      · exfalso
        have := hc.2.2.1 hvge
        omega
    · have hvle : v ≤ best := by omega
      have hple : p ≤ v := hc.2.1 (by omega)
      have hstep : root_loop_max g fuel s (a :: as) best act best ifny st =
          root_loop_max g fuel s as best act (max best best) ifny rst := by
        simp only [root_loop_max, ← hv, ← hrst, if_neg hvgt]
      rw [hstep, show max best best = best from by omega,
        show max best p = best from by omega]
      exact ih best act rst hb1 hb2 hnd'.2.1 hdisj_rst

theorem root_loop_min_sound {σ μ : Type} (g : SGame σ μ) (HB : bounded_leaves g)
    (HNE : nonempty_actions g) (fuel : Nat) (s : σ) :
    ∀ (as : List μ) (best : Int) (act : Option μ) (st : MMState),
    best ≤ ifny → -ifny < best →
    (tstrings g (as.flatMap (fun a => atree g fuel true (g.result s a) 1))).Nodup →
    (∀ k ∈ ttKeys st.table,
      k ∉ tstrings g (as.flatMap (fun a => atree g fuel true (g.result s a) 1))) →
    (root_loop_min g fuel s as best act (-ifny) best st).best =
      pfold_min g fuel s 0 best as := by
  intro as
  induction as with
  | nil => intro best act st _ _ _ _; rfl
  | cons a as ih =>
    intro best act st hb1 hb2 hnd hdisj
    have htstr : tstrings g
        ((a :: as).flatMap (fun a => atree g fuel true (g.result s a) 1)) =
        tstrings g (atree g fuel true (g.result s a) 1) ++
        tstrings g (as.flatMap (fun a => atree g fuel true (g.result s a) 1)) := by
      simp [tstrings, List.flatMap_cons]
    rw [htstr] at hnd hdisj
    have hnd' := List.nodup_append.mp hnd
    have hdisj_a : ∀ k ∈ ttKeys st.table,
        k ∉ tstrings g (atree g fuel true (g.result s a) 1) :=
      fun k hk hmem => hdisj k hk (List.mem_append_left _ hmem)
    have hdisj_as : ∀ k ∈ ttKeys st.table,
        k ∉ tstrings g (as.flatMap (fun a => atree g fuel true (g.result s a) 1)) :=
      fun k hk hmem => hdisj k hk (List.mem_append_right _ hmem)
    have hc := node_spec_child_max g fuel (ab_sound g fuel) 0 (g.result s a) (-ifny) best st
      (le_refl _) hb1 hb2 hnd'.1 hdisj_a
    set v := (max_value g fuel (g.result s a) (-ifny) best 1 st).1 with hv
    set rst := (max_value g fuel (g.result s a) (-ifny) best 1 st).2 with hrst
    set p := mm_max g fuel (g.result s a) 1 with hp
    have hpb : -ifny < p ∧ p < ifny := mm_value_bounds g HB HNE fuel true (g.result s a) 1
    have hdisj_rst : ∀ k ∈ ttKeys rst.table,
        k ∉ tstrings g (as.flatMap (fun a => atree g fuel true (g.result s a) 1)) := by
      intro k hk
      rcases hc.1 k hk with h' | h'
      · exact hdisj_as k h'
      · exact fun hmem => (List.disjoint_left.mp hnd'.2.2) h' hmem
    have hpfold : pfold_min g fuel s 0 best (a :: as) = pfold_min g fuel s 0 (min best p) as := by
      simp [pfold_min]
    rw [hpfold]
    by_cases hvlt : v < best
    · rcases lt_or_le (-ifny) v with hvgt | hvle
      · have hpe : v = p := hc.2.2.2 hvgt hvlt
        have hstep : root_loop_min g fuel s (a :: as) best act (-ifny) best st =
            root_loop_min g fuel s as v (some a) (-ifny) (min best v) rst := by
          simp only [root_loop_min, ← hv, ← hrst, if_pos hvlt]
        rw [hstep, show min best v = v from by omega,
          show min best p = v from by omega]
        exact ih v (some a) rst (by omega) (by omega) hnd'.2.1 hdisj_rst
      · exfalso
        have := hc.2.1 hvle
        omega
    · have hvle : best ≤ v := by omega
      have hple : v ≤ p := hc.2.2.1 (by omega)
      have hstep : root_loop_min g fuel s (a :: as) best act (-ifny) best st =
          root_loop_min g fuel s as best act (-ifny) (min best best) rst := by
        simp only [root_loop_min, ← hv, ← hrst, if_neg hvlt]
      rw [hstep, show min best best = best from by omega,
        show min best p = best from by omega]
      exact ih best act rst hb1 hb2 hnd'.2.1 hdisj_rst

/-- C1, amended: for a game that honours the contract's obligations
(utilities and heuristic evaluations strictly inside the `±2^20`
sentinels, action lists never empty), and a search in which no
transposition can actually occur — the transposition strings of all states
in the searched tree are pairwise distinct, so the cache is never hit —
the value returned by the pruned, transposition-memoized evaluator at the
root equals the value of the plain unpruned minimax evaluator over the
same game tree with the same cutoff policy, for either player and any
fuel.  The no-transposition proviso is forced by the counterexample: with
a transposition, a cached fail-low value (an inexact upper bound produced
by a completed loop) can be replayed and change the root value. -/
theorem c1_pruning_equiv_no_transposition {σ μ : Type} (g : SGame σ μ) (fuel : Nat)
    (s : σ) (HB : bounded_leaves g) (HNE : nonempty_actions g)
    (h1 : (tstrings g (dec_tree_max g fuel s)).Nodup)
    (h2 : (tstrings g (dec_tree_min g fuel s)).Nodup) :
    (minimax_decision_max g fuel s).1.value = mm_decision_max g fuel s ∧
    (minimax_decision_min g fuel s).1.value = mm_decision_min g fuel s := by
  have hifny := ifny_pos
  constructor
  · have := root_loop_max_sound g HB HNE fuel s (g.actions s) (-ifny) none ⟨0 + 1, []⟩
      (le_refl _) (by omega) h1 (by intro k hk; simp [ttKeys] at hk)
    exact this
  · have := root_loop_min_sound g HB HNE fuel s (g.actions s) ifny none ⟨0 + 1, []⟩
      (le_refl _) (by omega) h2 (by intro k hk; simp [ttKeys] at hk)
    exact this

/-- A game used only to exercise the depth-cutoff branch: never terminal,
cutoff fires below the root. -/
def cutG : SGame Bool Unit where
  actions _ := [()]
  result s _ := !s
  is_terminal _ := false
  utility _ := 0
  cutoff_test _ d := decide (0 < d)
  eval _ := 7
  transposition_string s := if s then ['t'] else ['f']

/-- A game whose action list is empty, to exercise the engine's behaviour
on a state with no moves. -/
def emptyG : SGame Unit Unit where
  actions _ := []
  result s _ := s
  is_terminal _ := false
  utility _ := 0
  cutoff_test _ _ := false
  eval _ := 0
  transposition_string _ := ['e']

/-- C1, counterexample: on the contract-satisfying game `cexG` (distinct
transposition strings per state, bounded utilities, nonempty action lists)
the pruned, memoized evaluator returns 11 at the root while plain unpruned
minimax over the same tree with the same cutoff policy returns 10: the
stale cached value of `X` (an upper bound produced by a completed loop
whose child pruned) is replayed on the second path to `X`. -/
theorem c1_counterexample :
    (minimax_decision_max cexG 10 CexS.r).1.value = 11 ∧
    mm_decision_max cexG 10 CexS.r = 10 ∧
    (minimax_decision_max cexG 10 CexS.r).1.value ≠ mm_decision_max cexG 10 CexS.r := by
  refine ⟨by decide, by decide, by decide⟩

/-- C3: the recursive evaluators test their conditions in a fixed order:
a transposition hit is returned as-is, for any alpha, beta and depth;
otherwise a terminal state returns its utility; otherwise a cutoff returns
the heuristic evaluation; the engine state is untouched in all three
cases. -/
theorem c3_dispatch_order {σ μ : Type} (g : SGame σ μ) (fuel : Nat) (s : σ)
    (alpha beta : Int) (depth : Nat) (st : MMState) :
    (∀ v, ttLookup st.table (g.transposition_string s) = some v →
      max_value g (fuel + 1) s alpha beta depth st = (v, st) ∧
      min_value g (fuel + 1) s alpha beta depth st = (v, st)) ∧
    (ttLookup st.table (g.transposition_string s) = none → g.is_terminal s = true →
      max_value g (fuel + 1) s alpha beta depth st = (g.utility s, st) ∧
      min_value g (fuel + 1) s alpha beta depth st = (g.utility s, st)) ∧
    (ttLookup st.table (g.transposition_string s) = none → g.is_terminal s = false →
      g.cutoff_test s depth = true →
      max_value g (fuel + 1) s alpha beta depth st = (g.eval s, st) ∧
      min_value g (fuel + 1) s alpha beta depth st = (g.eval s, st)) := by
  refine ⟨fun v hv => ?_, fun h0 h1 => ?_, fun h0 h1 h2 => ?_⟩ <;>
    constructor <;> simp [max_value, min_value, ab_value, *]

/-- C3, witness: the three branches exercised concretely — a cache hit on
`cexG` returns the stored value 5 ignoring the window and depth, the
terminal state `W` returns its utility 12, and a cutoff state of `cutG`
returns the heuristic value 7. -/
theorem c3_witness :
    max_value cexG 3 CexS.X 0 0 9 ⟨4, [(['x'], 5)]⟩ = (5, ⟨4, [(['x'], 5)]⟩) ∧
    min_value cexG 3 CexS.W 0 0 0 ⟨0, []⟩ = (12, ⟨0, []⟩) ∧
    max_value cutG 3 true 0 0 2 ⟨0, []⟩ = (7, ⟨0, []⟩) :=
  ⟨((c3_dispatch_order cexG 2 CexS.X 0 0 9 ⟨4, [(['x'], 5)]⟩).1 5 (by decide)).1,
   ((c3_dispatch_order cexG 2 CexS.W 0 0 0 ⟨0, []⟩).2.1 (by decide) (by decide)).2,
   ((c3_dispatch_order cutG 2 true 0 0 2 ⟨0, []⟩).2.2 (by decide) (by decide) (by decide)).1⟩

/-- C4: the root-level loops never break out early: processing a
concatenation of actions equals processing the first part and continuing
with the second on the accumulated incumbent, bound and engine state (so
every action of the list is recursed into), and the loop only tightens its
own bound (alpha never decreases for the maximizer, beta never increases
for the minimizer); the opponent-side bound is threaded to every child
unchanged as the `beta` (resp. `alpha`) argument. -/
theorem c4_root_no_self_cutoff {σ μ : Type} (g : SGame σ μ) (fuel : Nat) (s : σ)
    (as bs : List μ) (best : Int) (act : Option μ) (alpha beta : Int) (st : MMState) :
    (root_loop_max g fuel s (as ++ bs) best act alpha beta st =
      root_loop_max g fuel s bs (root_loop_max g fuel s as best act alpha beta st).best
        (root_loop_max g fuel s as best act alpha beta st).act
        (root_loop_max g fuel s as best act alpha beta st).bound beta
        (root_loop_max g fuel s as best act alpha beta st).st) ∧
    alpha ≤ (root_loop_max g fuel s as best act alpha beta st).bound ∧
    (root_loop_min g fuel s (as ++ bs) best act alpha beta st =
      root_loop_min g fuel s bs (root_loop_min g fuel s as best act alpha beta st).best
        (root_loop_min g fuel s as best act alpha beta st).act alpha
        (root_loop_min g fuel s as best act alpha beta st).bound
        (root_loop_min g fuel s as best act alpha beta st).st) ∧
    (root_loop_min g fuel s as best act alpha beta st).bound ≤ beta := by
  induction as generalizing best act alpha beta st with
  | nil => exact ⟨rfl, le_refl _, rfl, le_refl _⟩
  | cons a as ih =>
    refine ⟨?_, ?_, ?_, ?_⟩
    · simp only [List.cons_append, root_loop_max]
      exact (ih _ _ _ _ _).1
    · simp only [root_loop_max]
      exact le_trans (le_max_left _ _) (ih _ _ _ _ _).2.1
    · simp only [List.cons_append, root_loop_min]
      exact (ih _ _ _ _ _).2.2.1
    · simp only [root_loop_min]
      exact le_trans (ih _ _ _ _ _).2.2.2 (min_le_left _ _)

/-- The sequence of child values `val` computed by the root loop of
`minimax_decision_max`, with the same evolution of the incumbent, the
alpha bound and the engine state as the loop itself. -/
def root_vals_max {σ μ : Type} (g : SGame σ μ) (fuel : Nat) (s : σ) :
    List μ → Int → Int → Int → MMState → List Int
  | [], _, _, _, _ => []
  | a :: as, best, alpha, beta, st =>
    let r := min_value g fuel (g.result s a) alpha beta 1 st
    let best' := if r.1 > best then r.1 else best
    r.1 :: root_vals_max g fuel s as best' (max alpha best') beta r.2

/-- The sequence of child values computed by the root loop of
`minimax_decision_min`. -/
def root_vals_min {σ μ : Type} (g : SGame σ μ) (fuel : Nat) (s : σ) :
    List μ → Int → Int → Int → MMState → List Int
  | [], _, _, _, _ => []
  | a :: as, best, alpha, beta, st =>
    let r := max_value g fuel (g.result s a) alpha beta 1 st
    let best' := if r.1 < best then r.1 else best
    r.1 :: root_vals_min g fuel s as best' alpha (min beta best') r.2

/-- The child values seen by the root loop of a `minimax_decision_max`
call. -/
def decision_vals_max {σ μ : Type} (g : SGame σ μ) (fuel : Nat) (s : σ) : List Int :=
  root_vals_max g fuel s (g.actions s) (-ifny) (-ifny) ifny ⟨0 + 1, []⟩

/-- The child values seen by the root loop of a `minimax_decision_min`
call. -/
def decision_vals_min {σ μ : Type} (g : SGame σ μ) (fuel : Nat) (s : σ) : List Int :=
  root_vals_min g fuel s (g.actions s) ifny (-ifny) ifny ⟨0 + 1, []⟩

/-- The pure incumbent-update discipline of the maximizing root loop:
replace only on strict improvement. -/
def pick_max {μ : Type} (best : Int) (act : Option μ) : List (μ × Int) → Int × Option μ
  | [] => (best, act)
  | (a, v) :: rest => if v > best then pick_max v (some a) rest else pick_max best act rest

/-- The pure incumbent-update discipline of the minimizing root loop. -/
def pick_min {μ : Type} (best : Int) (act : Option μ) : List (μ × Int) → Int × Option μ
  | [] => (best, act)
  | (a, v) :: rest => if v < best then pick_min v (some a) rest else pick_min best act rest

theorem root_loop_max_pick {σ μ : Type} (g : SGame σ μ) (fuel : Nat) (s : σ) :
    ∀ (as : List μ) (best : Int) (act : Option μ) (alpha beta : Int) (st : MMState),
    ((root_loop_max g fuel s as best act alpha beta st).best,
     (root_loop_max g fuel s as best act alpha beta st).act) =
      pick_max best act (as.zip (root_vals_max g fuel s as best alpha beta st)) := by
  intro as
  induction as with
  | nil => intro best act alpha beta st; rfl
  | cons a as ih =>
    intro best act alpha beta st
    by_cases h : (min_value g fuel (g.result s a) alpha beta 1 st).1 > best
    · simp only [root_loop_max, root_vals_max, List.zip_cons_cons, pick_max, if_pos h]
      exact ih _ _ _ _ _
    · simp only [root_loop_max, root_vals_max, List.zip_cons_cons, pick_max, if_neg h]
      exact ih _ _ _ _ _

theorem root_loop_min_pick {σ μ : Type} (g : SGame σ μ) (fuel : Nat) (s : σ) :
    ∀ (as : List μ) (best : Int) (act : Option μ) (alpha beta : Int) (st : MMState),
    ((root_loop_min g fuel s as best act alpha beta st).best,
     (root_loop_min g fuel s as best act alpha beta st).act) =
      pick_min best act (as.zip (root_vals_min g fuel s as best alpha beta st)) := by
  intro as
  induction as with
  | nil => intro best act alpha beta st; rfl
  | cons a as ih =>
    intro best act alpha beta st
    by_cases h : (max_value g fuel (g.result s a) alpha beta 1 st).1 < best
    · simp only [root_loop_min, root_vals_min, List.zip_cons_cons, pick_min, if_pos h]
      exact ih _ _ _ _ _
    · simp only [root_loop_min, root_vals_min, List.zip_cons_cons, pick_min, if_neg h]
      exact ih _ _ _ _ _

theorem pick_max_stay {μ : Type} (best : Int) (act : Option μ) :
    ∀ (l : List (μ × Int)), (∀ p ∈ l, p.2 ≤ best) → pick_max best act l = (best, act) := by
  intro l
  induction l with
  | nil => intro; rfl
  | cons p rest ih =>
    intro h
    obtain ⟨a, v⟩ := p
    have hv : v ≤ best := h (a, v) (List.mem_cons_self _ _)
    simp only [pick_max, if_neg (not_lt_of_le hv)]
    exact ih fun q hq => h q (List.mem_cons_of_mem _ hq)

theorem pick_min_stay {μ : Type} (best : Int) (act : Option μ) :
    ∀ (l : List (μ × Int)), (∀ p ∈ l, best ≤ p.2) → pick_min best act l = (best, act) := by
  intro l
  induction l with
  | nil => intro; rfl
  | cons p rest ih =>
    intro h
    obtain ⟨a, v⟩ := p
    have hv : best ≤ v := h (a, v) (List.mem_cons_self _ _)
    simp only [pick_min, if_neg (not_lt_of_le hv)]
    exact ih fun q hq => h q (List.mem_cons_of_mem _ hq)

theorem pick_max_first {μ : Type} :
    ∀ (l : List (μ × Int)) (best : Int) (act : Option μ) (i : Nat) (hi : i < l.length),
    (∀ j, (hj : j < l.length) → (l.get ⟨j, hj⟩).2 ≤ (l.get ⟨i, hi⟩).2) →
    (∀ j, (hj : j < i) → (l.get ⟨j, Nat.lt_trans hj hi⟩).2 < (l.get ⟨i, hi⟩).2) →
    best < (l.get ⟨i, hi⟩).2 →
    (pick_max best act l).2 = some (l.get ⟨i, hi⟩).1 := by
  intro l
  induction l with
  | nil => intro best act i hi; exact absurd hi (Nat.not_lt_zero i)
  | cons p rest ih =>
    intro best act i hi hmax hfirst hbest
    obtain ⟨a, v⟩ := p
    match i with
    | 0 =>
      simp only [List.get] at hbest hmax ⊢
      simp only [pick_max, if_pos hbest]
      have hstay : ∀ q ∈ rest, q.2 ≤ v := by
        intro q hq
        obtain ⟨⟨j, hj⟩, rfl⟩ := List.mem_iff_get.mp hq
        exact hmax (j + 1) (Nat.succ_lt_succ hj)
      have := pick_max_stay v (some a) rest hstay
      rw [this]
    | i' + 1 =>
      have hv : v < (List.get (⟨a, v⟩ :: rest) ⟨i' + 1, hi⟩).2 :=
        hfirst 0 (Nat.succ_pos i')
      simp only [List.get] at hv ⊢
      by_cases h : v > best
      · simp only [pick_max, if_pos h]
        exact ih v (some a) i' (Nat.lt_of_succ_lt_succ hi)
          (fun j hj => hmax (j + 1) (Nat.succ_lt_succ hj))
          (fun j hj => hfirst (j + 1) (Nat.succ_lt_succ hj)) hv
      · simp only [pick_max, if_neg h]
        exact ih best act i' (Nat.lt_of_succ_lt_succ hi)
          (fun j hj => hmax (j + 1) (Nat.succ_lt_succ hj))
          (fun j hj => hfirst (j + 1) (Nat.succ_lt_succ hj)) hbest

theorem pick_min_first {μ : Type} :
    ∀ (l : List (μ × Int)) (best : Int) (act : Option μ) (i : Nat) (hi : i < l.length),
    (∀ j, (hj : j < l.length) → (l.get ⟨i, hi⟩).2 ≤ (l.get ⟨j, hj⟩).2) →
    (∀ j, (hj : j < i) → (l.get ⟨i, hi⟩).2 < (l.get ⟨j, Nat.lt_trans hj hi⟩).2) →
    (l.get ⟨i, hi⟩).2 < best →
    (pick_min best act l).2 = some (l.get ⟨i, hi⟩).1 := by
  intro l
  induction l with
  | nil => intro best act i hi; exact absurd hi (Nat.not_lt_zero i)
  | cons p rest ih =>
    intro best act i hi hmin hfirst hbest
    obtain ⟨a, v⟩ := p
    match i with
    | 0 =>
      simp only [List.get] at hbest hmin ⊢
      simp only [pick_min, if_pos hbest]
      have hstay : ∀ q ∈ rest, v ≤ q.2 := by
        intro q hq
        obtain ⟨⟨j, hj⟩, rfl⟩ := List.mem_iff_get.mp hq
        exact hmin (j + 1) (Nat.succ_lt_succ hj)
      have := pick_min_stay v (some a) rest hstay
      rw [this]
    | i' + 1 =>
      have hv : (List.get (⟨a, v⟩ :: rest) ⟨i' + 1, hi⟩).2 < v :=
        hfirst 0 (Nat.succ_pos i')
      simp only [List.get] at hv ⊢
      by_cases h : v < best
      · simp only [pick_min, if_pos h]
        exact ih v (some a) i' (Nat.lt_of_succ_lt_succ hi)
          (fun j hj => hmin (j + 1) (Nat.succ_lt_succ hj))
          (fun j hj => hfirst (j + 1) (Nat.succ_lt_succ hj)) hv
      · simp only [pick_min, if_neg h]
        exact ih best act i' (Nat.lt_of_succ_lt_succ hi)
          (fun j hj => hmin (j + 1) (Nat.succ_lt_succ hj))
          (fun j hj => hfirst (j + 1) (Nat.succ_lt_succ hj)) hbest

/-- The entry `(k, v)` lying directly on top of the table segment `R` was
written by a completed action loop of the search itself: a loop over the
FULL action list of a state whose transposition string is `k`, started
from the loop's own seed (`-ifny` for `__max_value`, `ifny` for
`__min_value`), that finished with its early-cutoff flag `false` and
value `v`, and whose output engine state carries exactly the table `R`
found beneath the entry in the real table (the loop's input table being
an earlier stage of `R`).  Pinning the loop's output table to the actual
table context beneath the entry ties the certificate to the very write
that produced the entry; a value returned through the fail-hard cutoff
branch (flag `true`) can never be certified this way. -/
def completed_write {σ μ : Type} (g : SGame σ μ) (k : List Char) (v : Int)
    (R : List (List Char × Int)) : Prop :=
  (∃ (fuel : Nat) (s : σ) (alpha beta : Int) (depth n1 n2 : Nat)
      (T0 : List (List Char × Int)),
    g.transposition_string s = k ∧ T0 <:+ R ∧
    max_loop g fuel s (g.actions s) (-ifny) alpha beta depth ⟨n1, T0⟩ =
      (v, ⟨n2, R⟩, false)) ∨
  (∃ (fuel : Nat) (s : σ) (alpha beta : Int) (depth n1 n2 : Nat)
      (T0 : List (List Char × Int)),
    g.transposition_string s = k ∧ T0 <:+ R ∧
    min_loop g fuel s (g.actions s) ifny alpha beta depth ⟨n1, T0⟩ =
      (v, ⟨n2, R⟩, false))

theorem max_loop_h_suffix {σ μ : Type} (g : SGame σ μ)
    (child : σ → Int → Int → MMState → Int × MMState)
    (hchild : ∀ (s' : σ) (a' b' : Int) (st' : MMState),
      st'.table <:+ (child s' a' b' st').2.table) (s : σ) :
    ∀ (as : List μ) (best alpha beta : Int) (st : MMState),
    st.table <:+ (max_loop_h g child s as best alpha beta st).2.1.table := by
  intro as
  induction as with
  | nil => intro best alpha beta st; exact List.suffix_refl _
  | cons a as ih =>
    intro best alpha beta st
    simp only [max_loop_h]
    by_cases hb : (if (child (g.result s a) alpha beta st).1 > best
        then (child (g.result s a) alpha beta st).1 else best) ≥ beta
    · rw [if_pos hb]
      exact hchild _ _ _ _
    · rw [if_neg hb]
      exact (hchild _ _ _ _).trans (ih _ _ _ _)

theorem min_loop_h_suffix {σ μ : Type} (g : SGame σ μ)
    (child : σ → Int → Int → MMState → Int × MMState)
    (hchild : ∀ (s' : σ) (a' b' : Int) (st' : MMState),
      st'.table <:+ (child s' a' b' st').2.table) (s : σ) :
    ∀ (as : List μ) (best alpha beta : Int) (st : MMState),
    st.table <:+ (min_loop_h g child s as best alpha beta st).2.1.table := by
  intro as
  induction as with
  | nil => intro best alpha beta st; exact List.suffix_refl _
  | cons a as ih =>
    intro best alpha beta st
    simp only [min_loop_h]
    by_cases hb : (if (child (g.result s a) alpha beta st).1 < best
        then (child (g.result s a) alpha beta st).1 else best) ≤ alpha
    · rw [if_pos hb]
      exact hchild _ _ _ _
    · rw [if_neg hb]
      exact (hchild _ _ _ _).trans (ih _ _ _ _)

/-- The transposition table only grows during evaluation: the incoming
table is a suffix of the outgoing one. -/
theorem ab_value_suffix {σ μ : Type} (g : SGame σ μ) :
    ∀ (fuel : Nat) (isMax : Bool) (s : σ) (alpha beta : Int) (depth : Nat) (st : MMState),
    st.table <:+ (ab_value g fuel isMax s alpha beta depth st).2.table := by
  intro fuel
  induction fuel with
  | zero => intro _ _ _ _ _ st; exact List.suffix_refl _
  | succ fuel IH =>
    intro isMax s alpha beta depth st
    rcases hl : ttLookup st.table (g.transposition_string s) with _ | w
    · by_cases ht : g.is_terminal s
      · have hval : ab_value g (fuel + 1) isMax s alpha beta depth st = (g.utility s, st) := by
          simp [ab_value, hl, ht]
        rw [hval]
      · by_cases hc : g.cutoff_test s depth
        · have hval : ab_value g (fuel + 1) isMax s alpha beta depth st = (g.eval s, st) := by
            simp [ab_value, hl, ht, hc]
          rw [hval]
        · cases isMax with
          | true =>
            rcases hloop : max_loop g fuel s (g.actions s) (-ifny) alpha beta depth
              ⟨st.nodes_expanded + 1, st.table⟩ with ⟨bf, st2, flag⟩
            have hval0 : ab_value g (fuel + 1) true s alpha beta depth st =
                (match max_loop g fuel s (g.actions s) (-ifny) alpha beta depth
                    { nodes_expanded := st.nodes_expanded + 1, table := st.table } with
                 | (w1, w2, true) => (w1, w2)
                 | (w1, w2, false) =>
                   (w1, { nodes_expanded := w2.nodes_expanded,
                          table := (g.transposition_string s, w1) :: w2.table })) := by
              rw [show ab_value g (fuel + 1) true s alpha beta depth st =
                max_value g (fuel + 1) s alpha beta depth st from rfl, max_value_succ, hl]
              simp [ht, hc]
            have hsuf : st.table <:+ st2.table := by
              have hs : (⟨st.nodes_expanded + 1, st.table⟩ : MMState).table <:+
                  (max_loop g fuel s (g.actions s) (-ifny) alpha beta depth
                    ⟨st.nodes_expanded + 1, st.table⟩).2.1.table :=
                max_loop_h_suffix g
                  (fun s' a' b' st' => min_value g fuel s' a' b' (depth + 1) st')
                  (fun s' a' b' st' => IH false s' a' b' (depth + 1) st')
                  s (g.actions s) (-ifny) alpha beta ⟨st.nodes_expanded + 1, st.table⟩
              rw [hloop] at hs
              exact hs
            cases flag with
            | true =>
              have hval : ab_value g (fuel + 1) true s alpha beta depth st = (bf, st2) := by
                rw [hval0, hloop]
              rw [hval]
              exact hsuf
            | false =>
              have hval : ab_value g (fuel + 1) true s alpha beta depth st =
                  (bf, { nodes_expanded := st2.nodes_expanded,
                         table := (g.transposition_string s, bf) :: st2.table }) := by
                rw [hval0, hloop]
              rw [hval]
              exact hsuf.trans (List.suffix_cons _ _)
          | false =>
            rcases hloop : min_loop g fuel s (g.actions s) ifny alpha beta depth
              ⟨st.nodes_expanded + 1, st.table⟩ with ⟨bf, st2, flag⟩
            have hval0 : ab_value g (fuel + 1) false s alpha beta depth st =
                (match min_loop g fuel s (g.actions s) ifny alpha beta depth
                    { nodes_expanded := st.nodes_expanded + 1, table := st.table } with
                 | (w1, w2, true) => (w1, w2)
                 | (w1, w2, false) =>
                   (w1, { nodes_expanded := w2.nodes_expanded,
                          table := (g.transposition_string s, w1) :: w2.table })) := by
              rw [show ab_value g (fuel + 1) false s alpha beta depth st =
                min_value g (fuel + 1) s alpha beta depth st from rfl, min_value_succ, hl]
              simp [ht, hc]
            have hsuf : st.table <:+ st2.table := by
              have hs : (⟨st.nodes_expanded + 1, st.table⟩ : MMState).table <:+
                  (min_loop g fuel s (g.actions s) ifny alpha beta depth
                    ⟨st.nodes_expanded + 1, st.table⟩).2.1.table :=
                min_loop_h_suffix g
                  (fun s' a' b' st' => max_value g fuel s' a' b' (depth + 1) st')
                  (fun s' a' b' st' => IH true s' a' b' (depth + 1) st')
                  s (g.actions s) ifny alpha beta ⟨st.nodes_expanded + 1, st.table⟩
              rw [hloop] at hs
              exact hs
            cases flag with
            | true =>
              have hval : ab_value g (fuel + 1) false s alpha beta depth st = (bf, st2) := by
                rw [hval0, hloop]
              rw [hval]
              exact hsuf
            | false =>
              have hval : ab_value g (fuel + 1) false s alpha beta depth st =
                  (bf, { nodes_expanded := st2.nodes_expanded,
                         table := (g.transposition_string s, bf) :: st2.table }) := by
                rw [hval0, hloop]
              rw [hval]
              exact hsuf.trans (List.suffix_cons _ _)
    · have hval : ab_value g (fuel + 1) isMax s alpha beta depth st = (w, st) := by
        simp [ab_value, hl]
      rw [hval]

/-- Every entry of a `__max_value` loop's output table either was already
present (with its whole context) in the loop's input table, or was
produced by some completed write of the search. -/
theorem max_loop_h_writes {σ μ : Type} (g : SGame σ μ)
    (child : σ → Int → Int → MMState → Int × MMState)
    (hchild : ∀ (s' : σ) (a' b' : Int) (st' : MMState) (E : List (List Char × Int))
      (k : List Char) (v : Int) (R : List (List Char × Int)),
      (child s' a' b' st').2.table = E ++ (k, v) :: R →
      (k, v) :: R <:+ st'.table ∨ completed_write g k v R)
    (s : σ) :
    ∀ (as : List μ) (best alpha beta : Int) (st : MMState) (E : List (List Char × Int))
      (k : List Char) (v : Int) (R : List (List Char × Int)),
    (max_loop_h g child s as best alpha beta st).2.1.table = E ++ (k, v) :: R →
    (k, v) :: R <:+ st.table ∨ completed_write g k v R := by
  intro as
  induction as with
  | nil =>
    intro best alpha beta st E k v R h
    have h2 : st.table = E ++ (k, v) :: R := h
    exact Or.inl (by rw [h2]; exact List.suffix_append _ _)
  | cons a as ih =>
    intro best alpha beta st E k v R h
    simp only [max_loop_h] at h
    by_cases hb : (if (child (g.result s a) alpha beta st).1 > best
        then (child (g.result s a) alpha beta st).1 else best) ≥ beta
    · rw [if_pos hb] at h
      exact hchild _ _ _ _ E k v R h
    · rw [if_neg hb] at h
      rcases ih _ _ _ _ E k v R h with h' | h'
      · obtain ⟨E', hE'⟩ := h'
        exact hchild _ _ _ _ E' k v R hE'.symm
      · exact Or.inr h'

/-- Mirror of `max_loop_h_writes` for the `__min_value` loop. -/
theorem min_loop_h_writes {σ μ : Type} (g : SGame σ μ)
    (child : σ → Int → Int → MMState → Int × MMState)
    (hchild : ∀ (s' : σ) (a' b' : Int) (st' : MMState) (E : List (List Char × Int))
      (k : List Char) (v : Int) (R : List (List Char × Int)),
      (child s' a' b' st').2.table = E ++ (k, v) :: R →
      (k, v) :: R <:+ st'.table ∨ completed_write g k v R)
    (s : σ) :
    ∀ (as : List μ) (best alpha beta : Int) (st : MMState) (E : List (List Char × Int))
      (k : List Char) (v : Int) (R : List (List Char × Int)),
    (min_loop_h g child s as best alpha beta st).2.1.table = E ++ (k, v) :: R →
    (k, v) :: R <:+ st.table ∨ completed_write g k v R := by
  intro as
  induction as with
  | nil =>
    intro best alpha beta st E k v R h
    have h2 : st.table = E ++ (k, v) :: R := h
    exact Or.inl (by rw [h2]; exact List.suffix_append _ _)
  | cons a as ih =>
    intro best alpha beta st E k v R h
    simp only [min_loop_h] at h
    by_cases hb : (if (child (g.result s a) alpha beta st).1 < best
        then (child (g.result s a) alpha beta st).1 else best) ≤ alpha
    · rw [if_pos hb] at h
      exact hchild _ _ _ _ E k v R h
    · rw [if_neg hb] at h
      rcases ih _ _ _ _ E k v R h with h' | h'
      · obtain ⟨E', hE'⟩ := h'
        exact hchild _ _ _ _ E' k v R hE'.symm
      · exact Or.inr h'

/-- Provenance of table entries through a node evaluation: every entry of
the output table was already present (with its context) in the input
table, or certifies a completed, uncut loop. -/
theorem ab_value_writes {σ μ : Type} (g : SGame σ μ) :
    ∀ (fuel : Nat) (isMax : Bool) (s : σ) (alpha beta : Int) (depth : Nat) (st : MMState)
      (E : List (List Char × Int)) (k : List Char) (v : Int) (R : List (List Char × Int)),
    (ab_value g fuel isMax s alpha beta depth st).2.table = E ++ (k, v) :: R →
    (k, v) :: R <:+ st.table ∨ completed_write g k v R := by
  intro fuel
  induction fuel with
  | zero =>
    intro isMax s alpha beta depth st E k v R h
    have h2 : st.table = E ++ (k, v) :: R := h
    exact Or.inl (by rw [h2]; exact List.suffix_append _ _)
  | succ fuel IH =>
    intro isMax s alpha beta depth st E k v R h
    rcases hl : ttLookup st.table (g.transposition_string s) with _ | w
    · by_cases ht : g.is_terminal s
      · have hval : ab_value g (fuel + 1) isMax s alpha beta depth st = (g.utility s, st) := by
          simp [ab_value, hl, ht]
        rw [hval] at h
        have h2 : st.table = E ++ (k, v) :: R := h
        exact Or.inl (by rw [h2]; exact List.suffix_append _ _)
      · by_cases hc : g.cutoff_test s depth
        · have hval : ab_value g (fuel + 1) isMax s alpha beta depth st = (g.eval s, st) := by
            simp [ab_value, hl, ht, hc]
          rw [hval] at h
          have h2 : st.table = E ++ (k, v) :: R := h
          exact Or.inl (by rw [h2]; exact List.suffix_append _ _)
        · cases isMax with
          | true =>
            rcases hloop : max_loop g fuel s (g.actions s) (-ifny) alpha beta depth
              ⟨st.nodes_expanded + 1, st.table⟩ with ⟨bf, st2, flag⟩
            have hval0 : ab_value g (fuel + 1) true s alpha beta depth st =
                (match max_loop g fuel s (g.actions s) (-ifny) alpha beta depth
                    { nodes_expanded := st.nodes_expanded + 1, table := st.table } with
                 | (w1, w2, true) => (w1, w2)
                 | (w1, w2, false) =>
                   (w1, { nodes_expanded := w2.nodes_expanded,
                          table := (g.transposition_string s, w1) :: w2.table })) := by
              rw [show ab_value g (fuel + 1) true s alpha beta depth st =
                max_value g (fuel + 1) s alpha beta depth st from rfl, max_value_succ, hl]
              simp [ht, hc]
            cases flag with
            | true =>
              have hval : ab_value g (fuel + 1) true s alpha beta depth st = (bf, st2) := by
                rw [hval0, hloop]
              rw [hval] at h
              have h2 : (max_loop_h g
                  (fun s' a' b' st' => ab_value g fuel false s' a' b' (depth + 1) st')
                  s (g.actions s) (-ifny) alpha beta
                  ⟨st.nodes_expanded + 1, st.table⟩).2.1.table = E ++ (k, v) :: R := by
                rw [show max_loop_h g
                    (fun s' a' b' st' => ab_value g fuel false s' a' b' (depth + 1) st')
                    s (g.actions s) (-ifny) alpha beta ⟨st.nodes_expanded + 1, st.table⟩ =
                  max_loop g fuel s (g.actions s) (-ifny) alpha beta depth
                    ⟨st.nodes_expanded + 1, st.table⟩ from rfl, hloop]
                exact h
              rcases max_loop_h_writes g
                  (fun s' a' b' st' => ab_value g fuel false s' a' b' (depth + 1) st')
                  (fun s' a' b' st' E' k' v' R' hh =>
                    IH false s' a' b' (depth + 1) st' E' k' v' R' hh)
                  s (g.actions s) (-ifny) alpha beta ⟨st.nodes_expanded + 1, st.table⟩
                  E k v R h2 with h3 | h3
              · exact Or.inl h3
              · exact Or.inr h3
            | false =>
              have hval : ab_value g (fuel + 1) true s alpha beta depth st =
                  (bf, { nodes_expanded := st2.nodes_expanded,
                         table := (g.transposition_string s, bf) :: st2.table }) := by
                rw [hval0, hloop]
              rw [hval] at h
              have h2 : (g.transposition_string s, bf) :: st2.table = E ++ (k, v) :: R := h
              cases E with
              | nil =>
                simp only [List.nil_append, List.cons.injEq, Prod.mk.injEq] at h2
                obtain ⟨⟨hk, hv⟩, hR⟩ := h2
                refine Or.inr (Or.inl ⟨fuel, s, alpha, beta, depth, st.nodes_expanded + 1,
                  st2.nodes_expanded, st.table, hk, ?_, ?_⟩)
                · rw [← hR]
                  have hs : (⟨st.nodes_expanded + 1, st.table⟩ : MMState).table <:+
                      (max_loop g fuel s (g.actions s) (-ifny) alpha beta depth
                        ⟨st.nodes_expanded + 1, st.table⟩).2.1.table :=
                    max_loop_h_suffix g
                      (fun s' a' b' st' => min_value g fuel s' a' b' (depth + 1) st')
                      (fun s' a' b' st' => ab_value_suffix g fuel false s' a' b' (depth + 1) st')
                      s (g.actions s) (-ifny) alpha beta ⟨st.nodes_expanded + 1, st.table⟩
                  rw [hloop] at hs
                  exact hs
                · rw [← hv, ← hR]
                  exact hloop
              | cons e E0 =>
                simp only [List.cons_append, List.cons.injEq] at h2
                have h3 : (max_loop_h g
                    (fun s' a' b' st' => ab_value g fuel false s' a' b' (depth + 1) st')
                    s (g.actions s) (-ifny) alpha beta
                    ⟨st.nodes_expanded + 1, st.table⟩).2.1.table = E0 ++ (k, v) :: R := by
                  rw [show max_loop_h g
                      (fun s' a' b' st' => ab_value g fuel false s' a' b' (depth + 1) st')
                      s (g.actions s) (-ifny) alpha beta ⟨st.nodes_expanded + 1, st.table⟩ =
                    max_loop g fuel s (g.actions s) (-ifny) alpha beta depth
                      ⟨st.nodes_expanded + 1, st.table⟩ from rfl, hloop]
                  exact h2.2
                rcases max_loop_h_writes g
                    (fun s' a' b' st' => ab_value g fuel false s' a' b' (depth + 1) st')
                    (fun s' a' b' st' E' k' v' R' hh =>
                      IH false s' a' b' (depth + 1) st' E' k' v' R' hh)
                    s (g.actions s) (-ifny) alpha beta ⟨st.nodes_expanded + 1, st.table⟩
                    E0 k v R h3 with h4 | h4
                · exact Or.inl h4
                · exact Or.inr h4
          | false =>
            rcases hloop : min_loop g fuel s (g.actions s) ifny alpha beta depth
              ⟨st.nodes_expanded + 1, st.table⟩ with ⟨bf, st2, flag⟩
            have hval0 : ab_value g (fuel + 1) false s alpha beta depth st =
                (match min_loop g fuel s (g.actions s) ifny alpha beta depth
                    { nodes_expanded := st.nodes_expanded + 1, table := st.table } with
                 | (w1, w2, true) => (w1, w2)
                 | (w1, w2, false) =>
                   (w1, { nodes_expanded := w2.nodes_expanded,
                          table := (g.transposition_string s, w1) :: w2.table })) := by
              rw [show ab_value g (fuel + 1) false s alpha beta depth st =
                min_value g (fuel + 1) s alpha beta depth st from rfl, min_value_succ, hl]
              simp [ht, hc]
            cases flag with
            | true =>
              have hval : ab_value g (fuel + 1) false s alpha beta depth st = (bf, st2) := by
                rw [hval0, hloop]
              rw [hval] at h
              have h2 : (min_loop_h g
                  (fun s' a' b' st' => ab_value g fuel true s' a' b' (depth + 1) st')
                  s (g.actions s) ifny alpha beta
                  ⟨st.nodes_expanded + 1, st.table⟩).2.1.table = E ++ (k, v) :: R := by
                rw [show min_loop_h g
                    (fun s' a' b' st' => ab_value g fuel true s' a' b' (depth + 1) st')
                    s (g.actions s) ifny alpha beta ⟨st.nodes_expanded + 1, st.table⟩ =
                  min_loop g fuel s (g.actions s) ifny alpha beta depth
                    ⟨st.nodes_expanded + 1, st.table⟩ from rfl, hloop]
                exact h
              rcases min_loop_h_writes g
                  (fun s' a' b' st' => ab_value g fuel true s' a' b' (depth + 1) st')
                  (fun s' a' b' st' E' k' v' R' hh =>
                    IH true s' a' b' (depth + 1) st' E' k' v' R' hh)
                  s (g.actions s) ifny alpha beta ⟨st.nodes_expanded + 1, st.table⟩
                  E k v R h2 with h3 | h3
              · exact Or.inl h3
              · exact Or.inr h3
            | false =>
              have hval : ab_value g (fuel + 1) false s alpha beta depth st =
                  (bf, { nodes_expanded := st2.nodes_expanded,
                         table := (g.transposition_string s, bf) :: st2.table }) := by
                rw [hval0, hloop]
              rw [hval] at h
              have h2 : (g.transposition_string s, bf) :: st2.table = E ++ (k, v) :: R := h
              cases E with
              | nil =>
                simp only [List.nil_append, List.cons.injEq, Prod.mk.injEq] at h2
                obtain ⟨⟨hk, hv⟩, hR⟩ := h2
                refine Or.inr (Or.inr ⟨fuel, s, alpha, beta, depth, st.nodes_expanded + 1,
                  st2.nodes_expanded, st.table, hk, ?_, ?_⟩)
                · rw [← hR]
                  have hs : (⟨st.nodes_expanded + 1, st.table⟩ : MMState).table <:+
                      (min_loop g fuel s (g.actions s) ifny alpha beta depth
                        ⟨st.nodes_expanded + 1, st.table⟩).2.1.table :=
                    min_loop_h_suffix g
                      (fun s' a' b' st' => max_value g fuel s' a' b' (depth + 1) st')
                      (fun s' a' b' st' => ab_value_suffix g fuel true s' a' b' (depth + 1) st')
                      s (g.actions s) ifny alpha beta ⟨st.nodes_expanded + 1, st.table⟩
                  rw [hloop] at hs
                  exact hs
                · rw [← hv, ← hR]
                  exact hloop
              | cons e E0 =>
                simp only [List.cons_append, List.cons.injEq] at h2
                have h3 : (min_loop_h g
                    (fun s' a' b' st' => ab_value g fuel true s' a' b' (depth + 1) st')
                    s (g.actions s) ifny alpha beta
                    ⟨st.nodes_expanded + 1, st.table⟩).2.1.table = E0 ++ (k, v) :: R := by
                  rw [show min_loop_h g
                      (fun s' a' b' st' => ab_value g fuel true s' a' b' (depth + 1) st')
                      s (g.actions s) ifny alpha beta ⟨st.nodes_expanded + 1, st.table⟩ =
                    min_loop g fuel s (g.actions s) ifny alpha beta depth
                      ⟨st.nodes_expanded + 1, st.table⟩ from rfl, hloop]
                  exact h2.2
                rcases min_loop_h_writes g
                    (fun s' a' b' st' => ab_value g fuel true s' a' b' (depth + 1) st')
                    (fun s' a' b' st' E' k' v' R' hh =>
                      IH true s' a' b' (depth + 1) st' E' k' v' R' hh)
                    s (g.actions s) ifny alpha beta ⟨st.nodes_expanded + 1, st.table⟩
                    E0 k v R h3 with h4 | h4
                · exact Or.inl h4
                · exact Or.inr h4
    · have hval : ab_value g (fuel + 1) isMax s alpha beta depth st = (w, st) := by
        simp [ab_value, hl]
      rw [hval] at h
      have h2 : st.table = E ++ (k, v) :: R := h
      exact Or.inl (by rw [h2]; exact List.suffix_append _ _)

/-- Provenance of table entries through the root loop of
`minimax_decision_max`. -/
theorem root_loop_max_writes {σ μ : Type} (g : SGame σ μ) (fuel : Nat) (s : σ) :
    ∀ (as : List μ) (best : Int) (act : Option μ) (alpha beta : Int) (st : MMState)
      (E : List (List Char × Int)) (k : List Char) (v : Int) (R : List (List Char × Int)),
    (root_loop_max g fuel s as best act alpha beta st).st.table = E ++ (k, v) :: R →
    (k, v) :: R <:+ st.table ∨ completed_write g k v R := by
  intro as
  induction as with
  | nil =>
    intro best act alpha beta st E k v R h
    have h2 : st.table = E ++ (k, v) :: R := h
    exact Or.inl (by rw [h2]; exact List.suffix_append _ _)
  | cons a as ih =>
    intro best act alpha beta st E k v R h
    by_cases hgt : (min_value g fuel (g.result s a) alpha beta 1 st).1 > best
    · have hstep : root_loop_max g fuel s (a :: as) best act alpha beta st =
          root_loop_max g fuel s as (min_value g fuel (g.result s a) alpha beta 1 st).1
            (some a) (max alpha (min_value g fuel (g.result s a) alpha beta 1 st).1) beta
            (min_value g fuel (g.result s a) alpha beta 1 st).2 := by
        simp only [root_loop_max, if_pos hgt]
      rw [hstep] at h
      rcases ih _ _ _ _ _ E k v R h with h' | h'
      · obtain ⟨E', hE'⟩ := h'
        exact ab_value_writes g fuel false (g.result s a) alpha beta 1 st E' k v R hE'.symm
      · exact Or.inr h'
    · have hstep : root_loop_max g fuel s (a :: as) best act alpha beta st =
          root_loop_max g fuel s as best act (max alpha best) beta
            (min_value g fuel (g.result s a) alpha beta 1 st).2 := by
        simp only [root_loop_max, if_neg hgt]
      rw [hstep] at h
      rcases ih _ _ _ _ _ E k v R h with h' | h'
      · obtain ⟨E', hE'⟩ := h'
        exact ab_value_writes g fuel false (g.result s a) alpha beta 1 st E' k v R hE'.symm
      · exact Or.inr h'

/-- Provenance of table entries through the root loop of
`minimax_decision_min`. -/
theorem root_loop_min_writes {σ μ : Type} (g : SGame σ μ) (fuel : Nat) (s : σ) :
    ∀ (as : List μ) (best : Int) (act : Option μ) (alpha beta : Int) (st : MMState)
      (E : List (List Char × Int)) (k : List Char) (v : Int) (R : List (List Char × Int)),
    (root_loop_min g fuel s as best act alpha beta st).st.table = E ++ (k, v) :: R →
    (k, v) :: R <:+ st.table ∨ completed_write g k v R := by
  intro as
  induction as with
  | nil =>
    intro best act alpha beta st E k v R h
    have h2 : st.table = E ++ (k, v) :: R := h
    exact Or.inl (by rw [h2]; exact List.suffix_append _ _)
  | cons a as ih =>
    intro best act alpha beta st E k v R h
    by_cases hlt : (max_value g fuel (g.result s a) alpha beta 1 st).1 < best
    · have hstep : root_loop_min g fuel s (a :: as) best act alpha beta st =
          root_loop_min g fuel s as (max_value g fuel (g.result s a) alpha beta 1 st).1
            (some a) alpha (min beta (max_value g fuel (g.result s a) alpha beta 1 st).1)
            (max_value g fuel (g.result s a) alpha beta 1 st).2 := by
        simp only [root_loop_min, if_pos hlt]
      rw [hstep] at h
      rcases ih _ _ _ _ _ E k v R h with h' | h'
      · obtain ⟨E', hE'⟩ := h'
        exact ab_value_writes g fuel true (g.result s a) alpha beta 1 st E' k v R hE'.symm
      · exact Or.inr h'
    · have hstep : root_loop_min g fuel s (a :: as) best act alpha beta st =
          root_loop_min g fuel s as best act alpha (min beta best)
            (max_value g fuel (g.result s a) alpha beta 1 st).2 := by
        simp only [root_loop_min, if_neg hlt]
      rw [hstep] at h
      rcases ih _ _ _ _ _ E k v R h with h' | h'
      · obtain ⟨E', hE'⟩ := h'
        exact ab_value_writes g fuel true (g.result s a) alpha beta 1 st E' k v R hE'.symm
      · exact Or.inr h'

/-- If the `__max_value` loop exits through its early-cutoff branch, the
returned value has reached the beta bound (it is fail-hard). -/
theorem max_loop_h_flag_true {σ μ : Type} (g : SGame σ μ)
    (child : σ → Int → Int → MMState → Int × MMState) (s : σ) :
    ∀ (as : List μ) (best alpha beta : Int) (st : MMState) (b : Int) (st2 : MMState),
    max_loop_h g child s as best alpha beta st = (b, st2, true) → beta ≤ b := by
  intro as
  induction as with
  | nil =>
    intro best alpha beta st b st2 h
    simp only [max_loop_h, Prod.mk.injEq] at h
    exact absurd h.2.2 (by simp)
  | cons a as ih =>
    intro best alpha beta st b st2 h
    simp only [max_loop_h] at h
    by_cases hb : (if (child (g.result s a) alpha beta st).1 > best
        then (child (g.result s a) alpha beta st).1 else best) ≥ beta
    · rw [if_pos hb, Prod.mk.injEq] at h
      rw [← h.1]
      exact hb
    · rw [if_neg hb] at h
      exact ih _ _ _ _ _ _ h

/-- If the `__min_value` loop exits through its early-cutoff branch, the
returned value has reached the alpha bound. -/
theorem min_loop_h_flag_true {σ μ : Type} (g : SGame σ μ)
    (child : σ → Int → Int → MMState → Int × MMState) (s : σ) :
    ∀ (as : List μ) (best alpha beta : Int) (st : MMState) (b : Int) (st2 : MMState),
    min_loop_h g child s as best alpha beta st = (b, st2, true) → b ≤ alpha := by
  intro as
  induction as with
  | nil =>
    intro best alpha beta st b st2 h
    simp only [min_loop_h, Prod.mk.injEq] at h
    exact absurd h.2.2 (by simp)
  | cons a as ih =>
    intro best alpha beta st b st2 h
    simp only [min_loop_h] at h
    by_cases hb : (if (child (g.result s a) alpha beta st).1 < best
        then (child (g.result s a) alpha beta st).1 else best) ≤ alpha
    · rw [if_pos hb, Prod.mk.injEq] at h
      rw [← h.1]
      exact hb
    · rw [if_neg hb] at h
      exact ih _ _ _ _ _ _ h

/-- A loop over a longer action list that finishes without an early
cutoff also traverses every initial part of the list without one: a flag
`false` certifies complete iteration over all actions. -/
theorem max_loop_h_split {σ μ : Type} (g : SGame σ μ)
    (child : σ → Int → Int → MMState → Int × MMState) (s : σ) :
    ∀ (as bs : List μ) (best alpha beta : Int) (st : MMState) (b : Int) (st2 : MMState),
    max_loop_h g child s (as ++ bs) best alpha beta st = (b, st2, false) →
    (max_loop_h g child s as best alpha beta st).2.2 = false := by
  intro as
  induction as with
  | nil => intro bs best alpha beta st b st2 h; rfl
  | cons a as ih =>
    intro bs best alpha beta st b st2 h
    rw [List.cons_append] at h
    simp only [max_loop_h] at h ⊢
    by_cases hb : (if (child (g.result s a) alpha beta st).1 > best
        then (child (g.result s a) alpha beta st).1 else best) ≥ beta
    · rw [if_pos hb] at h
      simp only [Prod.mk.injEq] at h
      exact absurd h.2.2 (by simp)
    · rw [if_neg hb] at h ⊢
      exact ih bs _ _ _ _ _ _ h

/-- Mirror of `max_loop_h_split` for the `__min_value` loop. -/
theorem min_loop_h_split {σ μ : Type} (g : SGame σ μ)
    (child : σ → Int → Int → MMState → Int × MMState) (s : σ) :
    ∀ (as bs : List μ) (best alpha beta : Int) (st : MMState) (b : Int) (st2 : MMState),
    min_loop_h g child s (as ++ bs) best alpha beta st = (b, st2, false) →
    (min_loop_h g child s as best alpha beta st).2.2 = false := by
  intro as
  induction as with
  | nil => intro bs best alpha beta st b st2 h; rfl
  | cons a as ih =>
    intro bs best alpha beta st b st2 h
    rw [List.cons_append] at h
    simp only [min_loop_h] at h ⊢
    by_cases hb : (if (child (g.result s a) alpha beta st).1 < best
        then (child (g.result s a) alpha beta st).1 else best) ≤ alpha
    · rw [if_pos hb] at h
      simp only [Prod.mk.injEq] at h
      exact absurd h.2.2 (by simp)
    · rw [if_neg hb] at h ⊢
      exact ih bs _ _ _ _ _ _ h

/-- C2: throughout a `minimax_decision_max` or `minimax_decision_min`
call, every value stored in the transposition table was obtained by
completely iterating over ALL of that node's actions without an early
alpha/beta cutoff, and a value returned by the fail-hard cutoff branch is
never written.  Formally: (1)–(2) every entry `(k, v)` of the final table
of either decision call, in its actual position `E ++ (k, v) :: R`, is
certified by `completed_write`: an action loop over the full action list
of a state with string `k` that finished with cutoff flag `false`, value
`v`, and exactly the table `R` found beneath the entry (so the
certificate is pinned to the very write that created the entry); (3)–(4)
when a node's loop exits early (flag `true`, which entails `beta ≤ best`
resp. `best ≤ alpha`), the node returns the loop's value and state
UNCHANGED — no entry is added for its key; (5)–(6) a loop finishing with
flag `false` traversed every action: each initial part of its action list
also ran without a cutoff. -/
theorem c2_table_entries_complete {σ μ : Type} (g : SGame σ μ) :
    (∀ (fuel : Nat) (s : σ) (E : List (List Char × Int)) (k : List Char) (v : Int)
        (R : List (List Char × Int)),
      (minimax_decision_max g fuel s).2.table = E ++ (k, v) :: R →
      completed_write g k v R) ∧
    (∀ (fuel : Nat) (s : σ) (E : List (List Char × Int)) (k : List Char) (v : Int)
        (R : List (List Char × Int)),
      (minimax_decision_min g fuel s).2.table = E ++ (k, v) :: R →
      completed_write g k v R) ∧
    (∀ (fuel : Nat) (s : σ) (alpha beta : Int) (depth : Nat) (st : MMState)
        (b : Int) (st2 : MMState),
      ttLookup st.table (g.transposition_string s) = none →
      g.is_terminal s = false →
      g.cutoff_test s depth = false →
      max_loop g fuel s (g.actions s) (-ifny) alpha beta depth
        ⟨st.nodes_expanded + 1, st.table⟩ = (b, st2, true) →
      beta ≤ b ∧ max_value g (fuel + 1) s alpha beta depth st = (b, st2)) ∧
    (∀ (fuel : Nat) (s : σ) (alpha beta : Int) (depth : Nat) (st : MMState)
        (b : Int) (st2 : MMState),
      ttLookup st.table (g.transposition_string s) = none →
      g.is_terminal s = false →
      g.cutoff_test s depth = false →
      min_loop g fuel s (g.actions s) ifny alpha beta depth
        ⟨st.nodes_expanded + 1, st.table⟩ = (b, st2, true) →
      b ≤ alpha ∧ min_value g (fuel + 1) s alpha beta depth st = (b, st2)) ∧
    (∀ (fuel : Nat) (s : σ) (as bs : List μ) (best alpha beta : Int) (depth : Nat)
        (st : MMState) (b : Int) (st2 : MMState),
      max_loop g fuel s (as ++ bs) best alpha beta depth st = (b, st2, false) →
      (max_loop g fuel s as best alpha beta depth st).2.2 = false) ∧
    (∀ (fuel : Nat) (s : σ) (as bs : List μ) (best alpha beta : Int) (depth : Nat)
        (st : MMState) (b : Int) (st2 : MMState),
      min_loop g fuel s (as ++ bs) best alpha beta depth st = (b, st2, false) →
      (min_loop g fuel s as best alpha beta depth st).2.2 = false) := by
  refine ⟨?_, ?_, ?_, ?_, ?_, ?_⟩
  · intro fuel s E k v R h
    have h2 : (root_loop_max g fuel s (g.actions s) (-ifny) none (-ifny) ifny
        ⟨0 + 1, []⟩).st.table = E ++ (k, v) :: R := h
    rcases root_loop_max_writes g fuel s (g.actions s) (-ifny) none (-ifny) ifny
        ⟨0 + 1, []⟩ E k v R h2 with h3 | h3
    · exact absurd (List.suffix_nil.mp h3) (by simp)
    · exact h3
  · intro fuel s E k v R h
    have h2 : (root_loop_min g fuel s (g.actions s) ifny none (-ifny) ifny
        ⟨0 + 1, []⟩).st.table = E ++ (k, v) :: R := h
    rcases root_loop_min_writes g fuel s (g.actions s) ifny none (-ifny) ifny
        ⟨0 + 1, []⟩ E k v R h2 with h3 | h3
    · exact absurd (List.suffix_nil.mp h3) (by simp)
    · exact h3
  · intro fuel s alpha beta depth st b st2 hl ht hc hloop
    constructor
    · exact max_loop_h_flag_true g
        (fun s' a' b' st' => min_value g fuel s' a' b' (depth + 1) st')
        s (g.actions s) (-ifny) alpha beta ⟨st.nodes_expanded + 1, st.table⟩ b st2 hloop
    · have hval0 : max_value g (fuel + 1) s alpha beta depth st =
          (match max_loop g fuel s (g.actions s) (-ifny) alpha beta depth
              { nodes_expanded := st.nodes_expanded + 1, table := st.table } with
           | (w1, w2, true) => (w1, w2)
           | (w1, w2, false) =>
             (w1, { nodes_expanded := w2.nodes_expanded,
                    table := (g.transposition_string s, w1) :: w2.table })) := by
        rw [max_value_succ, hl]
        simp [ht, hc]
      rw [hval0, hloop]
  · intro fuel s alpha beta depth st b st2 hl ht hc hloop
    constructor
    · exact min_loop_h_flag_true g
        (fun s' a' b' st' => max_value g fuel s' a' b' (depth + 1) st')
        s (g.actions s) ifny alpha beta ⟨st.nodes_expanded + 1, st.table⟩ b st2 hloop
    · have hval0 : min_value g (fuel + 1) s alpha beta depth st =
          (match min_loop g fuel s (g.actions s) ifny alpha beta depth
              { nodes_expanded := st.nodes_expanded + 1, table := st.table } with
           | (w1, w2, true) => (w1, w2)
           | (w1, w2, false) =>
             (w1, { nodes_expanded := w2.nodes_expanded,
                    table := (g.transposition_string s, w1) :: w2.table })) := by
        rw [min_value_succ, hl]
        simp [ht, hc]
      rw [hval0, hloop]
  · intro fuel s as bs best alpha beta depth st b st2 h
    exact max_loop_h_split g
      (fun s' a' b' st' => min_value g fuel s' a' b' (depth + 1) st')
      s as bs best alpha beta st b st2 h
  · intro fuel s as bs best alpha beta depth st b st2 h
    exact min_loop_h_split g
      (fun s' a' b' st' => max_value g fuel s' a' b' (depth + 1) st')
      s as bs best alpha beta st b st2 h

/-- Concrete instances of C2 on the game `cexG`: the entry `['x'] ↦ 11`
of the final table of `minimax_decision_max cexG 10 r` (whose context
beneath it is the empty table) is a completed write; the early-cutoff
exit of the `__min_value` loop at state `Y` (value `11 ≤ alpha = 12`)
returns the node's value and state with no entry written for `['y']`;
and the loop at `M` that finished without a cutoff also traversed its
first action without one. -/
theorem c2_witness :
    completed_write cexG ['x'] 11 [] ∧
    ((11 : Int) ≤ 12 ∧
      min_value cexG 5 CexS.Y 12 ifny 5 ⟨0, []⟩ = (11, ⟨1, []⟩)) ∧
    (max_loop cexG 8 CexS.M [0] (-ifny) (-ifny) ifny 2 ⟨0, []⟩).2.2 = false :=
  ⟨(c2_table_entries_complete cexG).1 10 CexS.r
      [(['b'], 11), (['a'], 10), (['m'], 12)] ['x'] 11 [] (by decide),
   (c2_table_entries_complete cexG).2.2.2.1 4 CexS.Y 12 ifny 5 ⟨0, []⟩ 11 ⟨1, []⟩
      (by decide) (by decide) (by decide) (by decide),
   (c2_table_entries_complete cexG).2.2.2.2.1 8 CexS.M [0] [1] (-ifny) (-ifny) ifny 2
      ⟨0, []⟩ 12 ⟨3, [(['x'], 11)]⟩ (by decide)⟩


/-- A game whose two root actions both lead to a terminal state of utility
exactly `-2^20` (the engine's minus-infinity sentinel); the contract allows
any utility range.  Used to refute the tie-break claim at the sentinel. -/
def sentG : SGame Bool Nat where
  actions s := if s then [0] else [0, 1]
  result _ _ := true
  is_terminal s := s
  utility _ := -ifny
  cutoff_test _ _ := false
  eval _ := 0
  transposition_string s := if s then ['1'] else ['0']

/-- C5, counterexample: on `sentG` the two root actions have equal and
maximal recursively computed values (both `-2^20`), yet the returned move
is `None`, not the first action `0`: the strict improvement test `val >
best` never fires because the incumbent starts at the sentinel `-2^20`. -/
theorem c5_counterexample :
    decision_vals_max sentG 5 false = [-(2 ^ 20 : Int), -(2 ^ 20 : Int)] ∧
    sentG.actions false = [0, 1] ∧
    (minimax_decision_max sentG 5 false).1.move = none ∧
    (minimax_decision_max sentG 5 false).1.move ≠ some 0 := by
  refine ⟨by decide, by decide, by decide, by decide⟩

/-- C5, amended: whenever the sequence of root child values attains its
maximum (resp. minimum for the minimizer) first at index `i`, and that
value is strictly above the `-2^20` sentinel (resp. strictly below
`2^20`), the returned move is the `i`-th action — in particular later
actions with an equal value never displace an earlier one, the tie being
broken in favour of the first-encountered action.  The sentinel proviso is
forced by the counterexample: a tied value of exactly `-2^20` (resp.
`2^20`) leaves the move at `None`. -/
theorem c5_first_tiebreak {σ μ : Type} (g : SGame σ μ) (fuel : Nat) (s : σ) :
    (∀ (i : Nat) (hi : i < ((g.actions s).zip (decision_vals_max g fuel s)).length),
      (∀ j, (hj : j < ((g.actions s).zip (decision_vals_max g fuel s)).length) →
        (((g.actions s).zip (decision_vals_max g fuel s)).get ⟨j, hj⟩).2 ≤
        (((g.actions s).zip (decision_vals_max g fuel s)).get ⟨i, hi⟩).2) →
      (∀ j, (hj : j < i) →
        (((g.actions s).zip (decision_vals_max g fuel s)).get ⟨j, Nat.lt_trans hj hi⟩).2 <
        (((g.actions s).zip (decision_vals_max g fuel s)).get ⟨i, hi⟩).2) →
      -ifny < (((g.actions s).zip (decision_vals_max g fuel s)).get ⟨i, hi⟩).2 →
      (minimax_decision_max g fuel s).1.move =
        some ((((g.actions s).zip (decision_vals_max g fuel s)).get ⟨i, hi⟩).1)) ∧
    (∀ (i : Nat) (hi : i < ((g.actions s).zip (decision_vals_min g fuel s)).length),
      (∀ j, (hj : j < ((g.actions s).zip (decision_vals_min g fuel s)).length) →
        (((g.actions s).zip (decision_vals_min g fuel s)).get ⟨i, hi⟩).2 ≤
        (((g.actions s).zip (decision_vals_min g fuel s)).get ⟨j, hj⟩).2) →
      (∀ j, (hj : j < i) →
        (((g.actions s).zip (decision_vals_min g fuel s)).get ⟨i, hi⟩).2 <
        (((g.actions s).zip (decision_vals_min g fuel s)).get ⟨j, Nat.lt_trans hj hi⟩).2) →
      (((g.actions s).zip (decision_vals_min g fuel s)).get ⟨i, hi⟩).2 < ifny →
      (minimax_decision_min g fuel s).1.move =
        some ((((g.actions s).zip (decision_vals_min g fuel s)).get ⟨i, hi⟩).1)) := by
  constructor
  · intro i hi hmax hfirst hsent
    have hpick := root_loop_max_pick g fuel s (g.actions s) (-ifny) none (-ifny) ifny ⟨0 + 1, []⟩
    have : (minimax_decision_max g fuel s).1.move =
        (pick_max (-ifny) (none : Option μ)
          ((g.actions s).zip (decision_vals_max g fuel s))).2 := by
      have := congrArg Prod.snd hpick
      simpa [minimax_decision_max, decision_vals_max] using this
    rw [this]
    exact pick_max_first _ _ _ i hi hmax hfirst hsent
  · intro i hi hmin hfirst hsent
    have hpick := root_loop_min_pick g fuel s (g.actions s) ifny none (-ifny) ifny ⟨0 + 1, []⟩
    have : (minimax_decision_min g fuel s).1.move =
        (pick_min ifny (none : Option μ)
          ((g.actions s).zip (decision_vals_min g fuel s))).2 := by
      have := congrArg Prod.snd hpick
      simpa [minimax_decision_min, decision_vals_min] using this
    rw [this]
    exact pick_min_first _ _ _ i hi hmin hfirst hsent

/-- A game with two root actions of equal value 7, to witness the
first-encountered tie-break. -/
def tieG : SGame Nat Nat where
  actions s := if s = 0 then [0, 1] else [0]
  result _ a := a + 1
  is_terminal s := decide (0 < s)
  utility _ := 7
  cutoff_test _ _ := false
  eval _ := 0
  transposition_string s := if s = 0 then ['0'] else if s = 1 then ['1'] else ['2']

/-- C5, witness: on `tieG` both root children have value 7 for either
player, and the engine returns the first action `0`. -/
theorem c5_witness :
    (minimax_decision_max tieG 5 0).1.move = some 0 ∧
    (minimax_decision_min tieG 5 0).1.move = some 0 :=
  ⟨(c5_first_tiebreak tieG 5 0).1 0 (by decide) (by decide) (by decide) (by decide),
   (c5_first_tiebreak tieG 5 0).2 0 (by decide) (by decide) (by decide) (by decide)⟩

/-- C1, witness: on the concrete game `tieG` (bounded utilities, nonempty
action lists, duplicate-free search tree) the pruned and plain evaluators
agree for both players. -/
theorem c1_witness :
    (minimax_decision_max tieG 5 0).1.value = mm_decision_max tieG 5 0 ∧
    (minimax_decision_min tieG 5 0).1.value = mm_decision_min tieG 5 0 :=
  c1_pruning_equiv_no_transposition tieG 5 0
    (fun s => by refine ⟨⟨?_, ?_⟩, ?_, ?_⟩ <;> norm_num [tieG, ifny])
    (fun s => by by_cases h : s = 0 <;> simp [tieG, h])
    (by decide) (by decide)

/-- The string rendering of `SearchTerminationRecord.__str__`: the format
string `Chose move <..> with .. Minimax value .. after .. seconds,
expanding .. nodes` applied to the move, the always-empty `textsuccess`,
the value, the formatted time and the node count (each already rendered
as text). -/
def str_render (move value time nodes : List Char) : List Char :=
  "Chose move <".toList ++ move ++ "> with ".toList ++ "".toList ++
    " Minimax value ".toList ++ value ++ " after ".toList ++ time ++
    " seconds, expanding ".toList ++ nodes ++ " nodes".toList

/-- C9, counterexample: the rendering of a record with move `a`, value `1`,
time `0.0000` and nodes `2` is not the claimed
`Chose move <a> with minimax value 1 after 0.0000 seconds, expanding 2
nodes`: the actual text has two spaces after `with` (the empty
`textsuccess` slot) and a capitalized `Minimax`. -/
theorem c9_counterexample :
    str_render "a".toList "1".toList "0.0000".toList "2".toList ≠
      "Chose move <a> with minimax value 1 after 0.0000 seconds, expanding 2 nodes".toList ∧
    str_render "a".toList "1".toList "0.0000".toList "2".toList =
      "Chose move <a> with  Minimax value 1 after 0.0000 seconds, expanding 2 nodes".toList := by
  refine ⟨by decide, by decide⟩

/-- C9, amended: for every move, value, time and node-count text, the
rendering is exactly `Chose move <M> with  Minimax value V after T
seconds, expanding N nodes` — i.e. the claimed shape with two spaces after
`with` and a capital `M` in `Minimax`. -/
theorem c9_render (move value time nodes : List Char) :
    str_render move value time nodes =
      "Chose move <".toList ++ move ++ "> with  Minimax value ".toList ++ value ++
        " after ".toList ++ time ++ " seconds, expanding ".toList ++ nodes ++
        " nodes".toList := by
  have h : "> with ".toList ++ ("".toList ++ " Minimax value ".toList) =
      "> with  Minimax value ".toList := by decide
  simp only [str_render, List.append_assoc, h]

/-- C10: on a state with an empty action list, `minimax_decision_max`
returns the record `(value := -(2^20), move := None, nodes := 1)` and
`minimax_decision_min` the record `(value := 2^20, move := None,
nodes := 1)`, with an empty transposition table, rather than raising an
error. -/
theorem c10_empty_actions {σ μ : Type} (g : SGame σ μ) (fuel : Nat) (s : σ)
    (h : g.actions s = []) :
    minimax_decision_max g fuel s = (⟨-(2 ^ 20 : Int), none, 1⟩, ⟨1, []⟩) ∧
    minimax_decision_min g fuel s = (⟨(2 ^ 20 : Int), none, 1⟩, ⟨1, []⟩) := by
  constructor <;>
    simp [minimax_decision_max, minimax_decision_min, root_loop_max, root_loop_min, h, ifny]

/-- C10, witness: the sentinel records on the concrete no-action game. -/
theorem c10_witness :
    minimax_decision_max emptyG 5 () = (⟨-(2 ^ 20 : Int), none, 1⟩, ⟨1, []⟩) ∧
    minimax_decision_min emptyG 5 () = (⟨(2 ^ 20 : Int), none, 1⟩, ⟨1, []⟩) :=
  c10_empty_actions emptyG 5 () (by decide)

end ABF

namespace SVR

/-- `SithVRebels_variant.GameState`.  Board coordinates are integers (the
Python code freely forms `r-1` etc. before the bounds check). -/
structure GameState where
  dim : Nat
  sith : List (Int × Int)
  rebels : List (Int × Int)
  jedi : List (Int × Int)
  maxs_turn : Bool
  cachedTerminal : Bool
  cachedOutcome : Option Bool
  stringified : List Char
  moves_made : Nat
deriving DecidableEq, Repr

/-- The character printed for a board square by `GameState.__str__`. -/
def boardChar (s : GameState) (r c : Int) : Char :=
  if (r, c) ∈ s.sith then 'S'
  else if (r, c) ∈ s.rebels then 'R'
  else if (r, c) ∈ s.jedi then 'J'
  else ' '

/-- `GameState.__str__`: the row-major board rendering (row 0 first),
one character per square. -/
def strS (s : GameState) : List Char :=
  (List.range s.dim).flatMap
    (fun (r : Nat) => (List.range s.dim).map (fun (c : Nat) => boardChar s (r : Int) (c : Int)))

/-- `GameState.__init__(dim)`: empty piece lists, Max to move, nothing
cached, the stringification of the empty board. -/
def GameState.init (dim : Nat) : GameState :=
  let s0 : GameState :=
    { dim := dim, sith := [], rebels := [], jedi := [], maxs_turn := true,
      cachedTerminal := false, cachedOutcome := none, stringified := [], moves_made := 0 }
  { s0 with stringified := strS s0 }

/-- `GameState.myclone`: a fresh `GameState()` — whose `dim` is therefore
the default 5, the source never copies `dim` — with the piece lists copied
element by element and the scalar fields copied across. -/
def GameState.myclone (s : GameState) : GameState :=
  { dim := 5,
    sith := s.sith.map (fun x => x),
    rebels := s.rebels.map (fun x => x),
    jedi := s.jedi.map (fun x => x),
    maxs_turn := s.maxs_turn,
    cachedTerminal := s.cachedTerminal,
    cachedOutcome := s.cachedOutcome,
    stringified := s.stringified,
    moves_made := s.moves_made }

/-- `GameState._occupied`. -/
def GameState.occupied (s : GameState) (r c : Int) : Prop :=
  (r, c) ∈ s.rebels ∨ (r, c) ∈ s.jedi ∨ (r, c) ∈ s.sith

instance (s : GameState) (r c : Int) : Decidable (s.occupied r c) := by
  unfold GameState.occupied
  infer_instance

/-- `SithVRebels_variant.Game` (constructor defaults `dim=5`,
`depthlimit=0`, `movelimit=40`). -/
structure Game where
  dim : Nat
  depth_limit : Nat
  move_limit : Nat

/-- The `Game()` built with the constructor's default arguments. -/
def svrG : Game := { dim := 5, depth_limit := 0, move_limit := 40 }

/-- `Game.initial_state`: one Sith at `(dim-1, dim//2)`, a Rebel on every
column of row 0, and the stringification recomputed. -/
def Game.initial_state (g : Game) : GameState :=
  let s1 : GameState :=
    { GameState.init g.dim with
        sith := [((g.dim : Int) - 1, (Int.ofNat (g.dim / 2)))],
        rebels := (List.range g.dim).map (fun c => ((0 : Int), Int.ofNat c)) }
  { s1 with stringified := strS s1 }

/-- `Game.is_mins_turn`. -/
def Game.is_mins_turn (_ : Game) (s : GameState) : Bool := !s.maxs_turn

/-- `Game.is_maxs_turn`. -/
def Game.is_maxs_turn (_ : Game) (s : GameState) : Bool := s.maxs_turn

/-- `Game.is_terminal`: a cached win/draw or the move limit exceeded. -/
def Game.is_terminal (g : Game) (s : GameState) : Bool :=
  s.cachedTerminal || decide (s.moves_made > g.move_limit)

/-- `Game._inbounds`. -/
def Game.inbounds (g : Game) (r c : Int) : Prop :=
  0 ≤ r ∧ r < (g.dim : Int) ∧ 0 ≤ c ∧ c < (g.dim : Int)

instance (g : Game) (r c : Int) : Decidable (g.inbounds r c) := by
  unfold Game.inbounds
  infer_instance

/-- The eight king/queen directions, in the order the source lists them. -/
def dirs8 : List (Int × Int) :=
  [(1, 1), (1, 0), (1, -1), (0, -1), (-1, -1), (-1, 0), (-1, 1), (0, 1)]

/-- `Game.__sith_actions`: king moves to any in-bounds square not holding
a Sith. -/
def Game.sith_actions (g : Game) (s : GameState) : List (Int × Int × Int × Int) :=
  s.sith.flatMap (fun sp =>
    dirs8.filterMap (fun d =>
      if g.inbounds (sp.1 + d.1) (sp.2 + d.2) ∧ (sp.1 + d.1, sp.2 + d.2) ∉ s.sith
      then some (sp.1, sp.2, sp.1 + d.1, sp.2 + d.2) else none))

/-- `Game.__rebel_actions`: one step up the board into a free square;
Rebels cannot capture. -/
def Game.rebel_actions (g : Game) (s : GameState) : List (Int × Int × Int × Int) :=
  s.rebels.filterMap (fun rp =>
    if g.inbounds (rp.1 + 1) rp.2 ∧ ¬ s.occupied (rp.1 + 1) rp.2
    then some (rp.1, rp.2, rp.1 + 1, rp.2) else none)

/-- The `while` walk of `Game.__jedi_actions` along one direction: slide
through free in-bounds squares, and when the walk stops on a Sith add the
capture move.  The step budget `g.dim + 1` strictly exceeds the number of
iterations the source's loop can make (at most `dim` positions of the ray
are in bounds), so the budget never runs out. -/
def Game.jediRay (g : Game) (s : GameState) (jr jc dr dc : Int) :
    Nat → Int → List (Int × Int × Int × Int)
  | 0, _ => []
  | steps + 1, i =>
    if g.inbounds (jr + i * dr) (jc + i * dc) ∧ ¬ s.occupied (jr + i * dr) (jc + i * dc) then
      (jr, jc, jr + i * dr, jc + i * dc) :: g.jediRay s jr jc dr dc steps (i + 1)
    else if (jr + i * dr, jc + i * dc) ∈ s.sith then
      [(jr, jc, jr + i * dr, jc + i * dc)]
    else []

/-- `Game.__jedi_actions`: queen moves along the eight rays. -/
def Game.jedi_actions (g : Game) (s : GameState) : List (Int × Int × Int × Int) :=
  s.jedi.flatMap (fun jp =>
    dirs8.flatMap (fun d => g.jediRay s jp.1 jp.2 d.1 d.2 (g.dim + 1) 1))

/-- `Game.actions`: Player 1 moves Rebels and Jedi, with the `None` pass
action when no real move exists; Player 2 moves the Sith. -/
def Game.actions (g : Game) (s : GameState) : List (Option (Int × Int × Int × Int)) :=
  if s.maxs_turn then
    if g.rebel_actions s ++ g.jedi_actions s = [] then [none]
    else (g.rebel_actions s ++ g.jedi_actions s).map Option.some
  else (g.sith_actions s).map Option.some

/-- `Game.__player1_result`: capture a Sith on the target square, then
move the Rebel (promoting on the last row) or the Jedi. -/
def Game.player1_result (g : Game) (olds ns : GameState)
    (a : Int × Int × Int × Int) : GameState :=
  match a with
  | (oldr, oldc, newr, newc) =>
    let ns := if (newr, newc) ∈ ns.sith then { ns with sith := ns.sith.erase (newr, newc) }
              else ns
    if (oldr, oldc) ∈ olds.rebels then
      let ns := { ns with rebels := ns.rebels.erase (oldr, oldc) }
      if newr = (g.dim : Int) - 1 then { ns with jedi := ns.jedi ++ [(newr, newc)] }
      else { ns with rebels := ns.rebels ++ [(newr, newc)] }
    else
      let ns := { ns with jedi := ns.jedi.erase (oldr, oldc) }
      { ns with jedi := ns.jedi ++ [(newr, newc)] }

/-- `Game.__player2_result`: capture a Rebel, convert a Jedi (the source
appends a new Sith without removing the moving one), or just move. -/
def Game.player2_result (_ : Game) (olds ns : GameState)
    (a : Int × Int × Int × Int) : GameState :=
  match a with
  | (oldr, oldc, newr, newc) =>
    if (newr, newc) ∈ olds.rebels then
      let ns := { ns with rebels := ns.rebels.erase (newr, newc) }
      let ns := { ns with sith := ns.sith.erase (oldr, oldc) }
      { ns with sith := ns.sith ++ [(newr, newc)] }
    else if (newr, newc) ∈ olds.jedi then
      let ns := { ns with jedi := ns.jedi.erase (newr, newc) }
      { ns with sith := ns.sith ++ [(newr, newc)] }
    else
      let ns := { ns with sith := ns.sith.erase (oldr, oldc) }
      { ns with sith := ns.sith ++ [(newr, newc)] }

/-- `Game._cache_outcome`: Player 1 wins when no Sith remain, Player 2
when no Rebels and no Jedi remain. -/
def cache_outcome (s : GameState) : GameState :=
  if s.sith.length = 0 then
    { s with cachedTerminal := true, cachedOutcome := some true }
  else if s.rebels.length = 0 ∧ s.jedi.length = 0 then
    { s with cachedTerminal := true, cachedOutcome := some false }
  else
    { s with cachedTerminal := false, cachedOutcome := none }

/-- `Game.result`: clone, bump the move counter; the `None` pass action
marks the clone a terminal draw and returns it at once (before the turn
flip); a real action is applied, the turn flipped, the outcome re-cached
and the stringification recomputed. -/
def Game.result (g : Game) (s : GameState) (a : Option (Int × Int × Int × Int)) :
    GameState :=
  let ns := s.myclone
  let ns := { ns with moves_made := ns.moves_made + 1 }
  match a with
  | none => { ns with cachedTerminal := true, cachedOutcome := none }
  | some act =>
    let ns := if s.maxs_turn then g.player1_result s ns act else g.player2_result s ns act
    let ns := { ns with maxs_turn := !s.maxs_turn }
    let ns := cache_outcome ns
    { ns with stringified := strS ns }

/-- `Game.transposition_string`: the cached stringification. -/
def Game.transposition_string (_ : Game) (s : GameState) : List Char :=
  s.stringified

/-- Apply a list of actions from a state, checking at every step that the
action is one of `Game.actions` of the current state (so a `some` result
is a state reachable by legal moves). -/
def Game.playChecked (g : Game) : GameState → List (Option (Int × Int × Int × Int)) →
    Option GameState
  | s, [] => some s
  | s, a :: rest => if a ∈ g.actions s then g.playChecked (g.result s a) rest else none

/-- A legal 20-move game (each move checked against `Game.actions`): the
Sith eats three Rebels, one Rebel promotes to a Jedi that is later
converted, and the final Sith move boxes in the last Rebel, leaving
Player 1 with no real move. -/
def c6_script : List (Option (Int × Int × Int × Int)) := [
  some (0, 2, 1, 2), some (4, 2, 3, 2), some (0, 3, 1, 3), some (3, 2, 2, 2),
  some (0, 4, 1, 4), some (2, 2, 1, 2), some (0, 1, 1, 1), some (1, 2, 1, 3),
  some (1, 4, 2, 4), some (1, 3, 2, 4), some (1, 1, 2, 1), some (2, 4, 3, 3),
  some (2, 1, 3, 1), some (3, 3, 3, 2), some (3, 1, 4, 1), some (3, 2, 3, 1),
  some (4, 1, 3, 0), some (3, 1, 3, 0), some (0, 0, 1, 0), some (3, 1, 2, 0)]

/-- The reachable state at the end of `c6_script`: Max to move with no
real move, so `actions` is the pass list `[None]`. -/
def c6_state : GameState :=
  { dim := 5,
    sith := [(3, 0), (2, 0)],
    rebels := [(1, 0)],
    jedi := [],
    maxs_turn := true,
    cachedTerminal := false,
    cachedOutcome := none,
    stringified := [' ', ' ', ' ', ' ', ' ', 'R', ' ', ' ', ' ', ' ', 'S', ' ', ' ', ' ', ' ',
                    'S', ' ', ' ', ' ', ' ', ' ', ' ', ' ', ' ', ' '],
    moves_made := 20 }

set_option maxHeartbeats 4000000 in
/-- C6, counterexample: on the reachable legal state `c6_state` the pass
action `None` is legal, yet `result` returns the early `None` branch
without flipping the turn: the successor still has Max to move although
`is_mins_turn` of the parent is false. -/
theorem c6_counterexample :
    svrG.playChecked svrG.initial_state c6_script = some c6_state ∧
    none ∈ svrG.actions c6_state ∧
    svrG.is_mins_turn c6_state = false ∧
    svrG.is_maxs_turn (svrG.result c6_state none) = true ∧
    svrG.is_maxs_turn (svrG.result c6_state none) ≠ svrG.is_mins_turn c6_state := by
  refine ⟨by decide, by decide, by decide, by decide, by decide⟩

/-- The eight legal moves reaching `c7_s8`: a Rebel marches straight to
promotion while the Sith shuffles between two squares. -/
def c7_script8 : List (Option (Int × Int × Int × Int)) := [
  some (0, 0, 1, 0), some (4, 2, 3, 2), some (1, 0, 2, 0), some (3, 2, 4, 2),
  some (2, 0, 3, 0), some (4, 2, 3, 2), some (3, 0, 4, 0), some (3, 2, 4, 2)]

/-- Four more legal moves: the Jedi steps down and back while the Sith
shuffles, returning to the same piece placement. -/
def c7_script12 : List (Option (Int × Int × Int × Int)) :=
  c7_script8 ++ [some (4, 0, 3, 0), some (4, 2, 3, 2), some (3, 0, 4, 0), some (3, 2, 4, 2)]

/-- The reachable state after `c7_script8`. -/
def c7_s8 : GameState :=
  { dim := 5,
    sith := [(4, 2)],
    rebels := [(0, 1), (0, 2), (0, 3), (0, 4)],
    jedi := [(4, 0)],
    maxs_turn := true,
    cachedTerminal := false,
    cachedOutcome := none,
    stringified := [' ', 'R', 'R', 'R', 'R', ' ', ' ', ' ', ' ', ' ', ' ', ' ', ' ', ' ', ' ',
                    ' ', ' ', ' ', ' ', ' ', 'J', ' ', 'S', ' ', ' '],
    moves_made := 8 }

/-- The reachable state after `c7_script12`: the same piece placement as
`c7_s8`, four plies later. -/
def c7_s12 : GameState :=
  { c7_s8 with moves_made := 12 }

set_option maxHeartbeats 4000000 in
/-- C7, counterexample: two distinct reachable states — same piece
placement but different values of the move counter `moves_made`, which
feeds `is_terminal` through the move limit — receive the same
transposition string, so `transposition_string` is not injective over
reachable states. -/
theorem c7_counterexample :
    svrG.playChecked svrG.initial_state c7_script8 = some c7_s8 ∧
    svrG.playChecked svrG.initial_state c7_script12 = some c7_s12 ∧
    c7_s8.moves_made = 8 ∧ c7_s12.moves_made = 12 ∧
    c7_s8 ≠ c7_s12 ∧
    svrG.transposition_string c7_s8 = svrG.transposition_string c7_s12 := by
  refine ⟨by decide, by decide, by decide, by decide, by decide, by decide⟩

end SVR

namespace TTT

/-- `TicTacToe.GameState`.  The `gameState` dict with the nine keys
`(1..3, 1..3)` is modelled as a total function on coordinate pairs (the
source never reads another key); `blanks`, a Python set, is modelled as a
list whose order stands in for the set's iteration order. -/
structure GameState where
  gameState : Nat × Nat → Char
  blanks : List (Nat × Nat)
  maxs_turn : Bool
  cachedWin : Bool
  cachedWinner : Option Bool
  stringified : List Char

/-- `GameState.__str__`: the nine cells in row-major order. -/
def tttStr (s : GameState) : List Char :=
  (List.range' 1 3).flatMap (fun r => (List.range' 1 3).map (fun c => s.gameState (r, c)))

/-- `GameState.__init__`: all cells blank, all nine keys blank,
Max to move. -/
def GameState.init : GameState :=
  let s0 : GameState :=
    { gameState := fun _ => ' ',
      blanks := (List.range' 1 3).flatMap (fun r => (List.range' 1 3).map (fun c => (r, c))),
      maxs_turn := true, cachedWin := false, cachedWinner := none, stringified := [] }
  { s0 with stringified := tttStr s0 }

/-- `GameState.myclone`: a fresh state with every dict entry, the blank
set and the scalar fields copied across. -/
def GameState.myclone (s : GameState) : GameState :=
  { gameState := fun rc => s.gameState rc,
    blanks := s.blanks.map (fun x => x),
    maxs_turn := s.maxs_turn,
    cachedWin := s.cachedWin,
    cachedWinner := s.cachedWinner,
    stringified := s.stringified }

/-- `TicTacToe.Game` (only `depthlimit` is stored). -/
structure Game where
  depth_limit : Nat

/-- `Game.is_maxs_turn`. -/
def Game.is_maxs_turn (_ : Game) (s : GameState) : Bool := s.maxs_turn

/-- `Game.is_mins_turn`. -/
def Game.is_mins_turn (_ : Game) (s : GameState) : Bool := !s.maxs_turn

/-- `Game.is_terminal`: a cached win or no blanks left. -/
def Game.is_terminal (_ : Game) (s : GameState) : Bool :=
  s.cachedWin || decide (s.blanks.length = 0)

/-- `Game.actions`: place the mover's token in any blank cell. -/
def Game.actions (_ : Game) (s : GameState) : List (Bool × (Nat × Nat)) :=
  s.blanks.map (fun b => (s.maxs_turn, b))

/-- `Game._cache_winner`: inspect only the row, the column and (when
applicable) the diagonals through the just-played cell. -/
def Game.cache_winner (_ : Game) (who : Bool) (wh : Nat × Nat) (s : GameState) : GameState :=
  let token := if who then 'X' else 'O'
  let won :=
    if (List.range' 1 3).all (fun r => s.gameState (r, wh.2) == token) then true
    else if (List.range' 1 3).all (fun c => s.gameState (wh.1, c) == token) then true
    else if wh.1 = wh.2 ∧ (List.range' 1 3).all (fun d => s.gameState (d, d) == token) then true
    else if wh.1 + wh.2 = 4 ∧ (List.range' 1 3).all (fun d => s.gameState (d, 4 - d) == token)
      then true
    else false
  if won then { s with cachedWin := true, cachedWinner := some who } else s

/-- `Game.result`: clone, remove the cell from the blanks, write the
token, flip the turn, cache a possible win through the played cell and
re-stringify. -/
def Game.result (t : Game) (s : GameState) (a : Bool × (Nat × Nat)) : GameState :=
  let ns := s.myclone
  let who := a.1
  let wh := a.2
  let ns := { ns with blanks := ns.blanks.erase wh }
  let ns := { ns with gameState := fun rc =>
    if rc = wh then (if who then 'X' else 'O') else ns.gameState rc }
  let ns := { ns with maxs_turn := !s.maxs_turn }
  let ns := t.cache_winner who wh ns
  { ns with stringified := tttStr ns }

/-- `Game.transposition_string`. -/
def Game.transposition_string (_ : Game) (s : GameState) : List Char :=
  s.stringified

end TTT

theorem svr_player1_result_maxs_turn (g : SVR.Game) (olds ns : SVR.GameState)
    (a : Int × Int × Int × Int) :
    (g.player1_result olds ns a).maxs_turn = ns.maxs_turn := by
  obtain ⟨oldr, oldc, newr, newc⟩ := a
  simp only [SVR.Game.player1_result]
  split_ifs <;> rfl

theorem svr_player2_result_maxs_turn (g : SVR.Game) (olds ns : SVR.GameState)
    (a : Int × Int × Int × Int) :
    (g.player2_result olds ns a).maxs_turn = ns.maxs_turn := by
  obtain ⟨oldr, oldc, newr, newc⟩ := a
  simp only [SVR.Game.player2_result]
  split_ifs <;> rfl

theorem svr_cache_outcome_maxs_turn (s : SVR.GameState) :
    (SVR.cache_outcome s).maxs_turn = s.maxs_turn := by
  simp only [SVR.cache_outcome]
  split_ifs <;> rfl

theorem ttt_cache_winner_maxs_turn (t : TTT.Game) (who : Bool) (wh : Nat × Nat)
    (s : TTT.GameState) : (t.cache_winner who wh s).maxs_turn = s.maxs_turn := by
  simp only [TTT.Game.cache_winner]
  split_ifs <;> rfl

/-- C6, amended: for every real (non-`None`) action — in both the
Sith-vs-Rebels variant and TicTacToe — `result` flips the turn indicator:
`is_maxs_turn(result(s, a))` equals `is_mins_turn(s)`.  The Sith variant's
pass action `None` is the one exception forced by the counterexample: its
early-return branch skips the flip, leaving `maxs_turn` unchanged on a
state it simultaneously marks as a terminal draw (so the indicator is
never consulted again by the engine). -/
theorem c6_result_flips_turn :
    (∀ (g : SVR.Game) (s : SVR.GameState) (a : Int × Int × Int × Int),
      g.is_maxs_turn (g.result s (some a)) = g.is_mins_turn s) ∧
    (∀ (g : SVR.Game) (s : SVR.GameState),
      g.is_maxs_turn (g.result s none) = g.is_maxs_turn s ∧
      (g.result s none).cachedTerminal = true) ∧
    (∀ (t : TTT.Game) (s : TTT.GameState) (a : Bool × (Nat × Nat)),
      t.is_maxs_turn (t.result s a) = t.is_mins_turn s) := by
  refine ⟨fun g s a => ?_, fun g s => ⟨rfl, rfl⟩, fun t s a => ?_⟩
  · simp only [SVR.Game.is_maxs_turn, SVR.Game.is_mins_turn, SVR.Game.result,
      svr_cache_outcome_maxs_turn]
  · simp only [TTT.Game.is_maxs_turn, TTT.Game.is_mins_turn, TTT.Game.result,
      ttt_cache_winner_maxs_turn]

theorem svr_result_moves_made (g : SVR.Game) (s : SVR.GameState)
    (a : Option (Int × Int × Int × Int)) :
    (g.result s a).moves_made = s.moves_made + 1 := by
  cases a with
  | none => rfl
  | some act =>
    simp only [SVR.Game.result, SVR.cache_outcome]
    by_cases h : s.maxs_turn
    · obtain ⟨oldr, oldc, newr, newc⟩ := act
      simp only [h, if_pos, SVR.Game.player1_result]
      split_ifs <;> rfl
    · obtain ⟨oldr, oldc, newr, newc⟩ := act
      simp only [h, if_neg, Bool.false_eq_true, not_false_iff, SVR.Game.player2_result]
      split_ifs <;> rfl

/-- C8: applying an action always produces a new state value — in the Sith
variant the move counter of the result is one larger, in TicTacToe the
turn flag is flipped, so the result is never equal to (in particular never
aliases) the input state, which the pure embedding leaves untouched; and
`myclone` is an exact copy: it equals its input (for the Sith variant on
the constructor's board size 5, since the source's clone rebuilds a
default `GameState()` and never copies `dim`). -/
theorem c8_result_fresh_clone_exact :
    (∀ (g : SVR.Game) (s : SVR.GameState) (a : Option (Int × Int × Int × Int)),
      g.result s a ≠ s) ∧
    (∀ s : SVR.GameState, s.dim = 5 → s.myclone = s) ∧
    (∀ (t : TTT.Game) (s : TTT.GameState) (a : Bool × (Nat × Nat)), t.result s a ≠ s) ∧
    (∀ s : TTT.GameState, s.myclone = s) := by
  refine ⟨fun g s a heq => ?_, fun s hdim => ?_, fun t s a heq => ?_, fun s => ?_⟩
  · have h := svr_result_moves_made g s a
    rw [heq] at h
    omega
  · cases s with
    | mk dim sith rebels jedi mt ct co str mm =>
      simp only [SVR.GameState.myclone] at hdim ⊢
      simp [List.map_id', hdim]
  · have h := c6_result_flips_turn.2.2 t s a
    rw [heq] at h
    simp [TTT.Game.is_maxs_turn, TTT.Game.is_mins_turn] at h
  · cases s with
    | mk gs bl mt cw cwin str =>
      simp [TTT.GameState.myclone, List.map_id']

/-- C8, witness: the freshness and exact-clone facts at concrete inputs —
the Sith initial state with its pass action and the TicTacToe-style clone
of the Sith initial state. -/
theorem c8_witness :
    SVR.svrG.result SVR.svrG.initial_state none ≠ SVR.svrG.initial_state ∧
    SVR.svrG.initial_state.myclone = SVR.svrG.initial_state :=
  ⟨c8_result_fresh_clone_exact.1 SVR.svrG SVR.svrG.initial_state none,
   c8_result_fresh_clone_exact.2.1 SVR.svrG.initial_state (by decide)⟩

namespace SVR

/-- A board square within the `dim × dim` board. -/
def inb (d : Nat) (p : Int × Int) : Prop :=
  0 ≤ p.1 ∧ p.1 < (d : Int) ∧ 0 ≤ p.2 ∧ p.2 < (d : Int)

instance (d : Nat) (p : Int × Int) : Decidable (inb d p) := by
  unfold inb
  infer_instance

/-- Well-formedness of a game state: every piece on the board and the
three piece lists pairwise disjoint — properties every state reachable by
legal moves enjoys. -/
def wf_state (s : GameState) : Prop :=
  (∀ p ∈ s.sith, inb s.dim p) ∧ (∀ p ∈ s.rebels, inb s.dim p) ∧
  (∀ p ∈ s.jedi, inb s.dim p) ∧
  (∀ p ∈ s.sith, p ∉ s.rebels ∧ p ∉ s.jedi) ∧ (∀ p ∈ s.rebels, p ∉ s.jedi)

instance (s : GameState) : Decidable (wf_state s) := by
  unfold wf_state
  infer_instance

theorem length_flatMap_rows (f : Nat → List Char) (m : Nat) (hf : ∀ i, (f i).length = m) :
    ∀ n, ((List.range n).flatMap f).length = n * m := by
  intro n
  induction n with
  | zero => simp
  | succ n ih =>
    rw [List.range_succ]
    simp only [List.flatMap_append, List.length_append, ih, List.flatMap_cons,
      List.flatMap_nil, List.append_nil, hf]
    ring

theorem flatMap_range_inj (f g : Nat → List Char) (m : Nat) (hf : ∀ i, (f i).length = m)
    (hg : ∀ i, (g i).length = m) :
    ∀ n, (List.range n).flatMap f = (List.range n).flatMap g → ∀ i, i < n → f i = g i := by
  intro n
  induction n with
  | zero => intro _ i hi; exact absurd hi (Nat.not_lt_zero i)
  | succ n ih =>
    intro h i hi
    rw [List.range_succ, List.flatMap_append, List.flatMap_append] at h
    have hlen : ((List.range n).flatMap f).length = ((List.range n).flatMap g).length := by
      rw [length_flatMap_rows f m hf, length_flatMap_rows g m hg]
    obtain ⟨h1, h2⟩ := List.append_inj h hlen
    rcases Nat.lt_succ_iff_lt_or_eq.mp hi with hlt | heqi
    · exact ih h1 i hlt
    · subst heqi
      simpa using h2

theorem map_range_inj (f g : Nat → Char) :
    ∀ n, (List.range n).map f = (List.range n).map g → ∀ i, i < n → f i = g i := by
  intro n
  induction n with
  | zero => intro _ i hi; exact absurd hi (Nat.not_lt_zero i)
  | succ n ih =>
    intro h i hi
    rw [List.range_succ, List.map_append, List.map_append] at h
    have hlen : ((List.range n).map f).length = ((List.range n).map g).length := by
      simp
    obtain ⟨h1, h2⟩ := List.append_inj h hlen
    rcases Nat.lt_succ_iff_lt_or_eq.mp hi with hlt | heqi
    · exact ih h1 i hlt
    · subst heqi
      simpa using h2

theorem strS_inj_cells (s1 s2 : GameState) (hdim : s1.dim = s2.dim)
    (h : strS s1 = strS s2) :
    ∀ r c : Nat, r < s1.dim → c < s1.dim →
    boardChar s1 (r : Int) (c : Int) = boardChar s2 (r : Int) (c : Int) := by
  intro r c hr hc
  unfold strS at h
  rw [← hdim] at h
  have hrows := flatMap_range_inj
    (fun (r : Nat) => (List.range s1.dim).map (fun (c : Nat) => boardChar s1 (r : Int) (c : Int)))
    (fun (r : Nat) => (List.range s1.dim).map (fun (c : Nat) => boardChar s2 (r : Int) (c : Int)))
    s1.dim (fun i => by rw [List.length_map, List.length_range])
    (fun i => by rw [List.length_map, List.length_range]) s1.dim h r hr
  exact map_range_inj _ _ s1.dim hrows c hc

theorem boardChar_of_mem_sith (s : GameState) (r c : Int) (h : (r, c) ∈ s.sith) :
    boardChar s r c = 'S' := by
  simp [boardChar, h]

theorem mem_sith_of_boardChar (s : GameState) (r c : Int) (h : boardChar s r c = 'S') :
    (r, c) ∈ s.sith := by
  by_cases hs : (r, c) ∈ s.sith
  · exact hs
  · exfalso
    simp only [boardChar, if_neg hs] at h
    split_ifs at h <;> exact absurd h (by decide)

theorem boardChar_of_mem_rebels (s : GameState) (r c : Int) (h : (r, c) ∈ s.rebels)
    (hs : (r, c) ∉ s.sith) : boardChar s r c = 'R' := by
  simp [boardChar, h, hs]

theorem mem_rebels_of_boardChar (s : GameState) (r c : Int) (h : boardChar s r c = 'R') :
    (r, c) ∈ s.rebels := by
  by_cases hr : (r, c) ∈ s.rebels
  · exact hr
  · exfalso
    simp only [boardChar, if_neg hr] at h
    split_ifs at h <;> exact absurd h (by decide)

theorem boardChar_of_mem_jedi (s : GameState) (r c : Int) (h : (r, c) ∈ s.jedi)
    (hs : (r, c) ∉ s.sith) (hr : (r, c) ∉ s.rebels) : boardChar s r c = 'J' := by
  simp [boardChar, h, hs, hr]

theorem mem_jedi_of_boardChar (s : GameState) (r c : Int) (h : boardChar s r c = 'J') :
    (r, c) ∈ s.jedi := by
  by_cases hj : (r, c) ∈ s.jedi
  · exact hj
  · exfalso
    simp only [boardChar, if_neg hj] at h
    split_ifs at h <;> exact absurd h (by decide)

theorem boardChar_cell (s1 s2 : GameState) (hdim : s1.dim = s2.dim)
    (h : strS s1 = strS s2) (p : Int × Int) (hp : inb s1.dim p) :
    boardChar s1 p.1 p.2 = boardChar s2 p.1 p.2 := by
  obtain ⟨h1, h2, h3, h4⟩ := hp
  have hr : p.1.toNat < s1.dim := by omega
  have hc : p.2.toNat < s1.dim := by omega
  have := strS_inj_cells s1 s2 hdim h p.1.toNat p.2.toNat hr hc
  rwa [show ((p.1.toNat : Nat) : Int) = p.1 from by omega,
    show ((p.2.toNat : Nat) : Int) = p.2 from by omega] at this

/-- C7, amended: the transposition string encodes exactly the piece
placement.  For two well-formed states of the same board size whose
cached strings are coherent, equal transposition strings force identical
Sith, Rebel and Jedi placements.  Injectivity over full reachable states
fails, as the counterexample shows, because neither the turn indicator
nor the move counter (which feeds `is_terminal`) is encoded. -/
theorem c7_transposition_injective_on_boards (g : Game) (s1 s2 : GameState)
    (hdim : s1.dim = s2.dim) (h1 : wf_state s1) (h2 : wf_state s2)
    (hc1 : s1.stringified = strS s1) (hc2 : s2.stringified = strS s2)
    (heq : g.transposition_string s1 = g.transposition_string s2) :
    (∀ p, p ∈ s1.sith ↔ p ∈ s2.sith) ∧ (∀ p, p ∈ s1.rebels ↔ p ∈ s2.rebels) ∧
    (∀ p, p ∈ s1.jedi ↔ p ∈ s2.jedi) := by
  have hstr : strS s1 = strS s2 := by
    rw [← hc1, ← hc2]
    exact heq
  have cell12 := fun p hp => boardChar_cell s1 s2 hdim hstr p hp
  have cell21 := fun p hp => boardChar_cell s2 s1 hdim.symm hstr.symm p hp
  rw [hdim] at cell12
  obtain ⟨hb1s, hb1r, hb1j, hd1, hd1'⟩ := h1
  obtain ⟨hb2s, hb2r, hb2j, hd2, hd2'⟩ := h2
  refine ⟨fun p => ⟨fun hp => ?_, fun hp => ?_⟩,
          fun p => ⟨fun hp => ?_, fun hp => ?_⟩,
          fun p => ⟨fun hp => ?_, fun hp => ?_⟩⟩
  · have := cell12 p (hdim ▸ hb1s p hp)
    rw [boardChar_of_mem_sith s1 p.1 p.2 hp] at this
    exact mem_sith_of_boardChar s2 p.1 p.2 this.symm
  · have := cell21 p (hb2s p hp)
    rw [boardChar_of_mem_sith s2 p.1 p.2 hp] at this
    exact mem_sith_of_boardChar s1 p.1 p.2 this.symm
  · have hns1 : p ∉ s1.sith := fun hc => (hd1 p hc).1 hp
    have := cell12 p (hdim ▸ hb1r p hp)
    rw [boardChar_of_mem_rebels s1 p.1 p.2 hp hns1] at this
    exact mem_rebels_of_boardChar s2 p.1 p.2 this.symm
  · have hns2 : p ∉ s2.sith := fun hc => (hd2 p hc).1 hp
    have := cell21 p (hb2r p hp)
    rw [boardChar_of_mem_rebels s2 p.1 p.2 hp hns2] at this
    exact mem_rebels_of_boardChar s1 p.1 p.2 this.symm
  · have hns1 : p ∉ s1.sith := fun hc => (hd1 p hc).2 hp
    have hnr1 : p ∉ s1.rebels := fun hc => hd1' p hc hp
    have := cell12 p (hdim ▸ hb1j p hp)
    rw [boardChar_of_mem_jedi s1 p.1 p.2 hp hns1 hnr1] at this
    exact mem_jedi_of_boardChar s2 p.1 p.2 this.symm
  · have hns2 : p ∉ s2.sith := fun hc => (hd2 p hc).2 hp
    have hnr2 : p ∉ s2.rebels := fun hc => hd2' p hc hp
    have := cell21 p (hb2j p hp)
    rw [boardChar_of_mem_jedi s2 p.1 p.2 hp hns2 hnr2] at this
    exact mem_jedi_of_boardChar s1 p.1 p.2 this.symm

/-- C7, witness: the amended statement applied to the concrete initial
state (well-formed, coherent cached string). -/
theorem c7_witness :
    (∀ p, p ∈ (svrG.initial_state).sith ↔ p ∈ (svrG.initial_state).sith) ∧
    (∀ p, p ∈ (svrG.initial_state).rebels ↔ p ∈ (svrG.initial_state).rebels) ∧
    (∀ p, p ∈ (svrG.initial_state).jedi ↔ p ∈ (svrG.initial_state).jedi) :=
  c7_transposition_injective_on_boards svrG svrG.initial_state svrG.initial_state rfl
    (by decide) (by decide) (by decide) (by decide) rfl

end SVR
